import Mathlib

/-!
Armadito core: the hash table of `librpc/hash.c` and the engine handle of
`libcore/armadito.c`.

A shallow embedding of the open-addressing hash table (linear probing,
tombstones, capacity doubling) and of the bootstrap of the engine handle, and
the properties their specification states.

Modelling conventions.

* A `void *` is its address, a natural number; `NULL` is `0` and `REMOVED`
  is `(void *)2`, as in the source.
* The slot array `ht->table` is a list; the C code keeps
  `length table = size` and `0 < size` (the array is always
  `calloc(ht->size, ...)`); theorems about arbitrary states assume it.
  The loop `for (j = 0; j < old_size; j++)` over `old_table[j]` is the
  recursion over that list.
* `size_t` values are natural numbers: a capacity near `2^64 / 23` cannot be
  allocated, so the products in `hash_table_must_rehash` do not wrap.
* String keys are read through a memory `mem`: `mem p` is the character
  sequence (before the terminating NUL) stored at address `p`, or `none` when
  `p` is not the address of a string.  Reading a string through `NULL` or
  through `REMOVED` is undefined behaviour; operations return `none` there.
* `malloc`/`calloc` are assumed to succeed, `fprintf` diagnostics are omitted.
* The engine handle calls functions that are defined outside `armadito.c`
  (module manager, event source, standard paths, logging). A call is an entry
  of a trace, in the order of the calls; what a call returns is a parameter.
-/

namespace Armadito

/-- A `void *`, as an address. -/
abbrev Ptr := Nat

/-- The null pointer. -/
def NULL : Ptr := 0

/-- The tombstone marker, `#define REMOVED ((void *)2)`. -/
def REMOVED : Ptr := 2

/-- The starting capacity, `#define HASH_DEFAULT_SIZE 64`. -/
def HASH_DEFAULT_SIZE : Nat := 64

/-- Modelled from the spec: `enum hash_table_type` is declared in `hash.h`, which
is not among the sources. The spec names two key disciplines, string keys and
identity (pointer) keys; the source tests `HASH_KEY_STR`. -/
inductive hash_table_type where
  | HASH_KEY_STR
  | HASH_KEY_PTR
deriving DecidableEq

/-- A slot, `struct hash_table_entry`. -/
structure hash_table_entry where
  key : Ptr
  value : Ptr
deriving DecidableEq

/-- The table, `struct hash_table`. -/
structure hash_table where
  type : hash_table_type
  size : Nat
  table : List hash_table_entry
  key_count : Nat
deriving DecidableEq

/-- The strings readable in memory: the `char` values before the NUL, by address. -/
abbrev Memory := Ptr → Option (List Int)

/-- Reading a C string through a pointer; `NULL` and `REMOVED` are not
addresses of strings. -/
def cstr (mem : Memory) (p : Ptr) : Option (List Int) :=
  if p = NULL ∨ p = REMOVED then none else mem p

/-- A zeroed slot, as `calloc` produces. -/
def empty_entry : hash_table_entry := ⟨NULL, NULL⟩

/-- The slot `table[w]`. -/
def slot (table : List hash_table_entry) (w : Nat) : hash_table_entry :=
  table.getD w empty_entry

/-- The constructor `hash_table_new`. -/
def hash_table_new (t : hash_table_type) : hash_table :=
  { type := t
    size := HASH_DEFAULT_SIZE
    table := List.replicate HASH_DEFAULT_SIZE empty_entry
    key_count := 0 }

/-- One round of the loop of `hash_str` on the 32-bit accumulator `h` with
the character `c` (its value as an `int`). -/
def hash_str_step (h : Nat) (c : Int) : Nat :=
  let h1 := (((h * 16 : Nat) : Int) + c).emod (2 ^ 32) |>.toNat
  let high := h1 &&& 0xF0000000
  let h2 := if high ≠ 0 then h1 ^^^ (high >>> 24) else h1
  h2 &&& (0xFFFFFFFF ^^^ high)

/-- The PJW string hash `hash_str`, on the characters of the string. -/
def hash_str (s : List Int) : Nat :=
  s.foldl hash_str_step 0

/-- Modelled from the spec: the macro `H_POINTER_TO_INT` is defined in `hash.h`,
which is not among the sources. It yields the identity value of the key, the
pointer as a 64-bit `uintptr_t`. -/
def H_POINTER_TO_INT (p : Ptr) : Nat := p % 2 ^ 64

/-- The pointer hash `himult64`: multiplication modulo `2^64`. -/
def himult64 (p : Ptr) : Nat :=
  (H_POINTER_TO_INT p * 11400712997709160919) % 2 ^ 64

/-- The macro `hash_pointer(HT, K)`. -/
def hash_pointer (_ht : hash_table) (K : Ptr) : Nat := himult64 K

/-- The macro `HASH(HT, K)`; `none` when a string table reads an invalid pointer. -/
def HASH (mem : Memory) (ht : hash_table) (K : Ptr) : Option Nat :=
  match ht.type with
  | .HASH_KEY_STR => (cstr mem K).map hash_str
  | .HASH_KEY_PTR => some (hash_pointer ht K)

/-- The macro `EQUAL(HT, K1, K2)`: `strcmp` on string tables, pointer equality
otherwise. -/
def EQUAL (mem : Memory) (ht : hash_table) (K1 K2 : Ptr) : Option Bool :=
  match ht.type with
  | .HASH_KEY_STR =>
    match cstr mem K1, cstr mem K2 with
    | some s1, some s2 => some (decide (s1 = s2))
    | _, _ => none
  | .HASH_KEY_PTR => some (decide (K1 = K2))

/-- The inner loop of `hash_table_rehash`: the value of `w` when the loop is
left, either at the first slot with a `NULL` key or, when there is none, the
last slot examined. `n` rounds remain, `i` is the loop counter. -/
def rehash_probe (table : List hash_table_entry) (size h : Nat) : Nat → Nat → Nat → Nat
  | 0, _, w => w
  | n + 1, i, _ =>
    let w := (h + i) % size
    if (slot table w).key = NULL then w else rehash_probe table size h n (i + 1) w

/-- The outer loop of `hash_table_rehash` over the entries of the old array. -/
def rehash_loop (mem : Memory) : hash_table → List hash_table_entry → Option hash_table
  | ht, [] => some ht
  | ht, e :: old =>
    match HASH mem ht e.key with
    | none => none
    | some hv =>
      let h := hv % ht.size
      let w := rehash_probe ht.table ht.size h ht.size 0 0
      rehash_loop mem { ht with table := ht.table.set w ⟨e.key, e.value⟩ } old

/-- The resize `hash_table_rehash`. -/
def hash_table_rehash (mem : Memory) (ht : hash_table) : Option hash_table :=
  let old_size := ht.size
  let old_table := ht.table
  rehash_loop mem
    { ht with size := 2 * old_size, table := List.replicate (2 * old_size) empty_entry }
    old_table

/-- The test `hash_table_must_rehash`. -/
def hash_table_must_rehash (ht : hash_table) : Bool :=
  decide (23 * ht.key_count > 16 * ht.size)

/-- The function `hash_table_check_overflow`. -/
def hash_table_check_overflow (mem : Memory) (ht : hash_table) : Option hash_table :=
  if hash_table_must_rehash ht then hash_table_rehash mem ht else some ht

/-- The probe loop of `hash_table_insert`: the value of `i` when the loop is
left (`size` when no slot was free). `n` rounds remain. -/
def insert_probe (table : List hash_table_entry) (size h : Nat) : Nat → Nat → Nat
  | 0, i => i
  | n + 1, i =>
    let w := (h + i) % size
    if (slot table w).key = NULL ∨ (slot table w).key = REMOVED then i
    else insert_probe table size h n (i + 1)

/-- The function `hash_table_insert`: the new state and the returned `int`. -/
def hash_table_insert (mem : Memory) (ht : hash_table) (key value : Ptr) :
    Option (hash_table × Int) :=
  match hash_table_check_overflow mem ht with
  | none => none
  | some ht =>
    match HASH mem ht key with
    | none => none
    | some hv =>
      let h := hv % ht.size
      let i := insert_probe ht.table ht.size h ht.size 0
      if i = ht.size then some (ht, 0)
      else
        let w := (h + i) % ht.size
        some ({ ht with table := ht.table.set w ⟨key, value⟩,
                        key_count := ht.key_count + 1 }, 1)

/-- The loop of `lookup_entry` from counter `i` with `n` rounds remaining:
`some (some w)` is the entry `ht->table + w`, `some none` is `NULL`. -/
def lookup_loop (mem : Memory) (ht : hash_table) (key : Ptr) (h : Nat) :
    Nat → Nat → Option (Option Nat)
  | 0, _ => some none
  | n + 1, i =>
    let w := (h + i) % ht.size
    if (slot ht.table w).key = NULL then some none
    else if (slot ht.table w).key = REMOVED then lookup_loop mem ht key h n (i + 1)
    else
      match EQUAL mem ht (slot ht.table w).key key with
      | none => none
      | some true => some (some w)
      | some false => lookup_loop mem ht key h n (i + 1)

/-- The function `lookup_entry`. -/
def lookup_entry (mem : Memory) (ht : hash_table) (key : Ptr) : Option (Option Nat) :=
  match HASH mem ht key with
  | none => none
  | some hv => lookup_loop mem ht key (hv % ht.size) ht.size 0

/-- The function `hash_table_search`: the state (the source writes nothing)
and the returned value pointer. -/
def hash_table_search (mem : Memory) (ht : hash_table) (key : Ptr) :
    Option (hash_table × Ptr) :=
  match lookup_entry mem ht key with
  | none => none
  | some none => some (ht, NULL)
  | some (some w) => some (ht, (slot ht.table w).value)

/-- The function `hash_table_remove`. `p_value` is `none` for a `NULL`
out-pointer and `some x` for a cell holding `x`; the result is the new state,
the returned `int` and the cell afterwards. -/
def hash_table_remove (mem : Memory) (ht : hash_table) (key : Ptr) (p_value : Option Ptr) :
    Option (hash_table × Int × Option Ptr) :=
  match lookup_entry mem ht key with
  | none => none
  | some none => some (ht, 0, p_value)
  | some (some w) =>
    let out := match p_value with
      | none => none
      | some _ => some (slot ht.table w).value
    some ({ ht with table := ht.table.set w ⟨REMOVED, NULL⟩ }, 1, out)

/-! ## Notions used to state the properties -/

/-- The allocation invariant of the C structure: the array has `size` slots
and `size` is positive. -/
def wf (ht : hash_table) : Prop :=
  ht.table.length = ht.size ∧ 0 < ht.size

/-- A slot is empty (never used): its key is `NULL`. -/
def is_empty (e : hash_table_entry) : Prop := e.key = NULL

/-- A slot is tombstoned: its key is `REMOVED`. -/
def is_tombstone (e : hash_table_entry) : Prop := e.key = REMOVED

/-- A slot is free for insertion: empty or tombstoned. -/
def is_free (e : hash_table_entry) : Prop := e.key = NULL ∨ e.key = REMOVED

/-- A slot is occupied: it holds a key that is neither `NULL` nor `REMOVED`. -/
def is_occupied (e : hash_table_entry) : Prop := e.key ≠ NULL ∧ e.key ≠ REMOVED

/-- An occupied slot whose key equals `k` under `EQUAL`. -/
def holds_key (mem : Memory) (ht : hash_table) (k : Ptr) (e : hash_table_entry) : Prop :=
  is_occupied e ∧ EQUAL mem ht e.key k = some true

/-- The index examined in round `i` of a probe that starts from the hash
value `hv`: `(hv % size + i) % size`. -/
def probe (ht : hash_table) (hv i : Nat) : Nat := (hv % ht.size + i) % ht.size

/-- The number of occupied slots. -/
def occupied (ht : hash_table) : Nat :=
  ht.table.countP (fun e => decide (e.key ≠ NULL ∧ e.key ≠ REMOVED))

/-- The number of slots whose key is not `NULL` (occupied or tombstoned). -/
def nonnull (table : List hash_table_entry) : Nat :=
  table.countP (fun e => decide (e.key ≠ NULL))

/-- The keys of the occupied slots can be hashed: on a string table they are
addresses of strings. -/
def keys_valid (mem : Memory) (ht : hash_table) : Prop :=
  ∀ e ∈ ht.table, is_occupied e → HASH mem ht e.key ≠ none

/-- A caller that inserts the pairs of a list one after the other; `none`
as soon as one insert faults. -/
def insert_all (mem : Memory) : hash_table → List (Ptr × Ptr) → Option hash_table
  | ht, [] => some ht
  | ht, (k, v) :: rest =>
    match hash_table_insert mem ht k v with
    | none => none
    | some (ht1, _) => insert_all mem ht1 rest

/-- Round `i` of the probe for `k` reaches the first occupied slot whose key
equals `k`, and no empty slot is met before it. -/
def found_at (mem : Memory) (ht : hash_table) (k : Ptr) (hv i : Nat) : Prop :=
  holds_key mem ht k (slot ht.table (probe ht hv i)) ∧
  ∀ j, j < i → ¬ is_empty (slot ht.table (probe ht hv j)) ∧
    ¬ holds_key mem ht k (slot ht.table (probe ht hv j))

/-- The invariant of the resize policy: the array has `size` slots, the
capacity is at least the starting one, the slots that are not empty are at
most `key_count`, and `key_count` exceeds 16/23 of the capacity by at most one
insertion. -/
def load_inv (ht : hash_table) : Prop :=
  ht.table.length = ht.size ∧ 64 ≤ ht.size ∧ nonnull ht.table ≤ ht.key_count ∧
    23 * ht.key_count ≤ 16 * ht.size + 23

/-- A call of the public interface of the table. -/
inductive call where
  | insert (key value : Ptr)
  | remove (key : Ptr)
  | search (key : Ptr)

/-- A caller that makes the calls of a list one after the other; `none` as
soon as one of them faults. -/
def run_calls (mem : Memory) : hash_table → List call → Option hash_table
  | ht, [] => some ht
  | ht, call.insert k v :: cs =>
    match hash_table_insert mem ht k v with
    | none => none
    | some (ht1, _) => run_calls mem ht1 cs
  | ht, call.remove k :: cs =>
    match hash_table_remove mem ht k none with
    | none => none
    | some (ht1, _) => run_calls mem ht1 cs
  | ht, call.search k :: cs =>
    match hash_table_search mem ht k with
    | none => none
    | some (ht1, _) => run_calls mem ht1 cs

/-! ## Sample inputs -/

/-- A memory that holds the one-character strings `"!"`, `"\""`, ... (character
codes 33, 34, ...) at the addresses 1000 to 1089, pairwise distinct. -/
def sample_mem : Memory :=
  fun p => if 1000 ≤ p ∧ p < 1090 then some [Int.ofNat (p - 1000 + 33)] else none

/-- The first `n` sample pairs: key `1000 + i`, value `5000 + i`. -/
def sample_pairs (n : Nat) : List (Ptr × Ptr) :=
  (List.range n).map (fun i => (1000 + i, 5000 + i))

/-- A string-keyed table after 45 inserts of distinct keys. -/
def str_table_45 : Option hash_table :=
  insert_all sample_mem (hash_table_new hash_table_type.HASH_KEY_STR) (sample_pairs 45)

/-- A pointer-keyed table after 45 inserts of distinct keys. -/
def ptr_table_45 : Option hash_table :=
  insert_all sample_mem (hash_table_new hash_table_type.HASH_KEY_PTR) (sample_pairs 45)

/-- A string-keyed table that holds the key at address 1000 (the string `"!"`,
hash 33) with the value 5000. -/
def one_key_table : hash_table :=
  { type := hash_table_type.HASH_KEY_STR
    size := 64
    table := (List.replicate 64 empty_entry).set 33 ⟨1000, 5000⟩
    key_count := 1 }

/-- The number of tombstoned slots. -/
def tombstones (ht : hash_table) : Nat :=
  ht.table.countP (fun e => decide (e.key = REMOVED))

/-- A pointer-keyed table of two slots, both occupied: a state that no
sequence of calls reaches, on which the overflow check asks for no resize. -/
def full_table : hash_table :=
  { type := hash_table_type.HASH_KEY_PTR
    size := 2
    table := [⟨8, 9⟩, ⟨16, 17⟩]
    key_count := 0 }

/-- The 32-bit step of the string hash in the words of the specification, on
the accumulator `h` and a character `c` taken as an unsigned 32-bit value:
`t = (h * 16 + c) mod 2^32`, `g = t AND 0xF0000000`, and the result is
`(if g != 0 then t XOR (g >> 24) else t) AND NOT g`, the complement being
the 32-bit one. -/
def pjw_step (h c : Nat) : Nat :=
  let t := (h * 16 + c) % 2 ^ 32
  let g := t &&& 0xF0000000
  (if g ≠ 0 then t ^^^ (g >>> 24) else t) &&& (0xFFFFFFFF ^^^ g)

/-- The value of a `char` (as an `int`) converted to `uint32_t`. -/
def char_to_u32 (c : Int) : Nat := (c % 2 ^ 32).toNat

/-- The number of `hash_table_insert` calls in a sequence of calls. -/
def insert_calls (cs : List call) : Nat :=
  cs.countP (fun c => match c with
    | call.insert _ _ => true
    | _ => false)

/-- The calls that insert the first `n` sample pairs. -/
def sample_calls (n : Nat) : List call :=
  (sample_pairs n).map (fun kv => call.insert kv.1 kv.2)

/-! ## The engine handle of `libcore/armadito.c` -/

/-- The builtin modules that `a6o_add_builtin_modules` may register. -/
inductive builtin_module where
  | on_demand_module
  | on_access_linux_module
  | on_access_win_module
  | quarantine_module
deriving DecidableEq

/-- The build options tested by the `#ifdef`s of `armadito.c`. -/
structure build_options where
  HAVE_GTHREAD_INIT : Bool
  HAVE_ON_DEMAND_MODULE : Bool
  HAVE_LINUX_ON_ACCESS_MODULE : Bool
  HAVE_ON_ACCESS_WINDOWS_MODULE : Bool
  HAVE_QUARANTINE_MODULE : Bool

/-- The warnings that `a6o_open` logs. -/
inductive warning where
  | cannot_get_modules_location
  | error_during_modules_load
  | error_during_modules_init
  | error_during_modules_configuration
  | error_during_modules_post_init
deriving DecidableEq

/-- A call made by the engine to a function defined outside `armadito.c`,
with its pointer arguments. -/
inductive ext_call where
  | g_thread_init
  | os_mime_type_init
  | module_manager_new
  | a6o_event_source_new
  | module_manager_add (mm : Ptr) (m : builtin_module)
  | a6o_std_path
  | module_manager_load_path (mm : Ptr) (dir : Ptr)
  | free (p : Ptr)
  | module_manager_init_all (mm : Ptr)
  | module_manager_configure_all (mm : Ptr) (conf : Ptr)
  | module_manager_post_init_all (mm : Ptr)
  | module_manager_close_all (mm : Ptr)
  | a6o_log (w : warning)
deriving DecidableEq

/-- What the functions called by `a6o_open` return in one run; each is called
at most once. The module manager, the event source and the standard paths are
not among the sources, so their results are parameters. -/
structure open_results where
  module_manager_new : Ptr
  a6o_event_source_new : Ptr
  a6o_std_path : Ptr
  module_manager_load_path : Int
  module_manager_init_all : Int
  module_manager_configure_all : Int
  module_manager_post_init_all : Int

/-- The engine handle, `struct armadito`. -/
structure armadito where
  module_manager : Ptr
  conf : Ptr
  event_source : Ptr
deriving DecidableEq

/-- The function `a6o_new`, on the trace of outside calls made so far; the
field `conf`, which `g_new` leaves unset, is assigned by `a6o_open` next. -/
def a6o_new (res : open_results) (tr : List ext_call) : armadito × List ext_call :=
  let mm := res.module_manager_new
  let tr := tr ++ [ext_call.module_manager_new]
  let es := res.a6o_event_source_new
  let tr := tr ++ [ext_call.a6o_event_source_new]
  ({ module_manager := mm, conf := NULL, event_source := es }, tr)

/-- The function `a6o_get_event_source`. -/
def a6o_get_event_source (u : armadito) : Ptr := u.event_source

/-- The function `a6o_add_builtin_modules`. -/
def a6o_add_builtin_modules (opts : build_options) (u : armadito) (tr : List ext_call) :
    List ext_call :=
  let tr := if opts.HAVE_ON_DEMAND_MODULE then
      tr ++ [ext_call.module_manager_add u.module_manager builtin_module.on_demand_module]
    else tr
  let tr := if opts.HAVE_LINUX_ON_ACCESS_MODULE then
      tr ++ [ext_call.module_manager_add u.module_manager builtin_module.on_access_linux_module]
    else tr
  let tr := if opts.HAVE_ON_ACCESS_WINDOWS_MODULE then
      tr ++ [ext_call.module_manager_add u.module_manager builtin_module.on_access_win_module]
    else tr
  let tr := if opts.HAVE_QUARANTINE_MODULE then
      tr ++ [ext_call.module_manager_add u.module_manager builtin_module.quarantine_module]
    else tr
  tr

/-- The function `a6o_open`: the engine handle and the trace of outside calls. -/
def a6o_open (opts : build_options) (res : open_results) (conf : Ptr) (tr : List ext_call) :
    armadito × List ext_call :=
  let tr := if opts.HAVE_GTHREAD_INIT then tr ++ [ext_call.g_thread_init] else tr
  let tr := tr ++ [ext_call.os_mime_type_init]
  let (u, tr) := a6o_new res tr
  let u := { u with conf := conf }
  let tr := a6o_add_builtin_modules opts u tr
  let modules_dir := res.a6o_std_path
  let tr := tr ++ [ext_call.a6o_std_path]
  let tr :=
    if modules_dir = NULL then
      tr ++ [ext_call.a6o_log warning.cannot_get_modules_location]
    else
      let tr := tr ++ [ext_call.module_manager_load_path u.module_manager modules_dir]
      let tr := if res.module_manager_load_path ≠ 0 then
          tr ++ [ext_call.a6o_log warning.error_during_modules_load]
        else tr
      tr ++ [ext_call.free modules_dir]
  let tr := tr ++ [ext_call.module_manager_init_all u.module_manager]
  let tr := if res.module_manager_init_all ≠ 0 then
      tr ++ [ext_call.a6o_log warning.error_during_modules_init]
    else tr
  let tr := tr ++ [ext_call.module_manager_configure_all u.module_manager conf]
  let tr := if res.module_manager_configure_all ≠ 0 then
      tr ++ [ext_call.a6o_log warning.error_during_modules_configuration]
    else tr
  let tr := tr ++ [ext_call.module_manager_post_init_all u.module_manager]
  let tr := if res.module_manager_post_init_all ≠ 0 then
      tr ++ [ext_call.a6o_log warning.error_during_modules_post_init]
    else tr
  (u, tr)

/-- The function `a6o_get_conf`. -/
def a6o_get_conf (u : armadito) : Ptr := u.conf

/-- The function `a6o_close`; `ret` is what `module_manager_close_all` returns
at this call. -/
def a6o_close (ret : Int) (u : armadito) (tr : List ext_call) : Int × List ext_call :=
  (ret, tr ++ [ext_call.module_manager_close_all u.module_manager])

/-- The steps of the bootstrap among the outside calls: registering a builtin
module, loading the dynamic modules, and the three lifecycle phases. -/
def is_bootstrap_step : ext_call → Bool
  | ext_call.module_manager_add _ _ => true
  | ext_call.module_manager_load_path _ _ => true
  | ext_call.module_manager_init_all _ => true
  | ext_call.module_manager_configure_all _ _ => true
  | ext_call.module_manager_post_init_all _ => true
  | _ => false

/-- The calls of `module_manager_close_all` among the outside calls. -/
def is_close_all : ext_call → Bool
  | ext_call.module_manager_close_all _ => true
  | _ => false

/-- The calls of `module_manager_configure_all` among the outside calls. -/
def is_configure_all : ext_call → Bool
  | ext_call.module_manager_configure_all _ _ => true
  | _ => false

/-- Build options with every builtin module. -/
def sample_options : build_options :=
  { HAVE_GTHREAD_INIT := false
    HAVE_ON_DEMAND_MODULE := true
    HAVE_LINUX_ON_ACCESS_MODULE := true
    HAVE_ON_ACCESS_WINDOWS_MODULE := false
    HAVE_QUARANTINE_MODULE := true }

/-- A run in which the dynamic load and every phase report an error. -/
def sample_results : open_results :=
  { module_manager_new := 100
    a6o_event_source_new := 200
    a6o_std_path := 300
    module_manager_load_path := 1
    module_manager_init_all := 1
    module_manager_configure_all := 1
    module_manager_post_init_all := 1 }

/-- The registrations of builtin modules that the build options enable, in
the order of `a6o_add_builtin_modules`. -/
def builtin_adds (opts : build_options) (mm : Ptr) : List ext_call :=
  (if opts.HAVE_ON_DEMAND_MODULE then
    [ext_call.module_manager_add mm builtin_module.on_demand_module] else []) ++
  (if opts.HAVE_LINUX_ON_ACCESS_MODULE then
    [ext_call.module_manager_add mm builtin_module.on_access_linux_module] else []) ++
  (if opts.HAVE_ON_ACCESS_WINDOWS_MODULE then
    [ext_call.module_manager_add mm builtin_module.on_access_win_module] else []) ++
  (if opts.HAVE_QUARANTINE_MODULE then
    [ext_call.module_manager_add mm builtin_module.quarantine_module] else [])

/-- The warning logged after a step that returned `r`: none when `r` is 0. -/
def log_if (r : Int) (w : warning) : List ext_call :=
  if r ≠ 0 then [ext_call.a6o_log w] else []

/-- The outside calls of one `a6o_open`, in order, as the source text lists
them. -/
def open_trace (opts : build_options) (res : open_results) (conf : Ptr) : List ext_call :=
  (if opts.HAVE_GTHREAD_INIT then [ext_call.g_thread_init] else []) ++
  [ext_call.os_mime_type_init, ext_call.module_manager_new, ext_call.a6o_event_source_new] ++
  builtin_adds opts res.module_manager_new ++
  [ext_call.a6o_std_path] ++
  (if res.a6o_std_path = NULL then [ext_call.a6o_log warning.cannot_get_modules_location]
   else [ext_call.module_manager_load_path res.module_manager_new res.a6o_std_path] ++
     log_if res.module_manager_load_path warning.error_during_modules_load ++
     [ext_call.free res.a6o_std_path]) ++
  [ext_call.module_manager_init_all res.module_manager_new] ++
  log_if res.module_manager_init_all warning.error_during_modules_init ++
  [ext_call.module_manager_configure_all res.module_manager_new conf] ++
  log_if res.module_manager_configure_all warning.error_during_modules_configuration ++
  [ext_call.module_manager_post_init_all res.module_manager_new] ++
  log_if res.module_manager_post_init_all warning.error_during_modules_post_init

/-- The value of the `char` that holds the byte `b` of a string, the value
`*p` has in `hash_str`. Whether `char` is signed is fixed by the platform, not
by the source: where it is signed (as on x86-64) a byte from 0x80 on is the
negative value `b - 256`, otherwise the `char` value is the byte. -/
def char_value (char_signed : Bool) (b : Nat) : Int :=
  if char_signed ∧ 128 ≤ b then (b : Int) - 256 else (b : Int)

/-! ## Slots and updates -/

theorem slot_set_eq (t : List hash_table_entry) (w : Nat) (e : hash_table_entry)
    (h : w < t.length) : slot (t.set w e) w = e := by
  simp [slot, List.getD_eq_getElem?_getD, List.getElem?_set, h]

theorem slot_set_ne (t : List hash_table_entry) (w j : Nat) (e : hash_table_entry)
    (h : j ≠ w) : slot (t.set w e) j = slot t j := by
  simp [slot, List.getD_eq_getElem?_getD, List.getElem?_set, Ne.symm h]

theorem slot_mem (t : List hash_table_entry) (w : Nat) (h : w < t.length) :
    slot t w ∈ t := by
  simp [slot, List.getD_eq_getElem?_getD, List.getElem?_eq_getElem h]

theorem probe_lt (ht : hash_table) (hv i : Nat) (h : wf ht) : probe ht hv i < ht.size :=
  Nat.mod_lt _ h.2

/-- Every index of the array is examined within `size` rounds. -/
theorem probe_surj (size h w : Nat) (hh : h < size) (hw : w < size) :
    ∃ j, j < size ∧ (h + j) % size = w := by
  by_cases hc : h ≤ w
  · refine ⟨w - h, by omega, ?_⟩
    have : h + (w - h) = w := by omega
    rw [this, Nat.mod_eq_of_lt hw]
  · refine ⟨w + size - h, by omega, ?_⟩
    have : h + (w + size - h) = w + size := by omega
    rw [this, Nat.add_mod_right, Nat.mod_eq_of_lt hw]

/-! ## The probe loops -/

/-- The probe loop of `hash_table_insert` stops at the first free slot from
round `i` on, or runs through its `n` rounds. -/
theorem insert_probe_spec (t : List hash_table_entry) (size h : Nat) :
    ∀ n i, i ≤ insert_probe t size h n i ∧ insert_probe t size h n i ≤ i + n ∧
      (∀ j, i ≤ j → j < insert_probe t size h n i → ¬ is_free (slot t ((h + j) % size))) ∧
      (insert_probe t size h n i < i + n →
        is_free (slot t ((h + insert_probe t size h n i) % size))) := by
  intro n
  induction n with
  | zero =>
    intro i
    refine ⟨Nat.le_refl _, Nat.le_refl _, ?_, ?_⟩
    · intro j h1 h2
      simp only [insert_probe] at h2
      omega
    · intro h1
      simp only [insert_probe] at h1
      omega
  | succ n ih =>
    intro i
    by_cases hf : (slot t ((h + i) % size)).key = NULL ∨ (slot t ((h + i) % size)).key = REMOVED
    · have e : insert_probe t size h (n + 1) i = i := by
        simp only [insert_probe, hf, if_true]
      rw [e]
      refine ⟨Nat.le_refl _, by omega, ?_, ?_⟩
      · intro j h1 h2
        omega
      · intro _
        exact hf
    · have e : insert_probe t size h (n + 1) i = insert_probe t size h n (i + 1) := by
        simp only [insert_probe, hf, if_false]
      rw [e]
      obtain ⟨a, b, c, d⟩ := ih (i + 1)
      refine ⟨by omega, by omega, ?_, ?_⟩
      · intro j h1 h2
        by_cases hj : j = i
        · subst hj
          exact hf
        · exact c j (by omega) h2
      · intro h1
        exact d (by omega)

/-- When some slot is free the probe loop of `hash_table_insert` finds one
within `size` rounds. -/
theorem insert_probe_lt (t : List hash_table_entry) (size h : Nat) (hh : h < size)
    (hfree : ∃ w, w < size ∧ is_free (slot t w)) :
    insert_probe t size h size 0 < size := by
  obtain ⟨_, hle, hnone, _⟩ := insert_probe_spec t size h size 0
  rcases Nat.lt_or_ge (insert_probe t size h size 0) size with hlt | hge
  · exact hlt
  · exfalso
    obtain ⟨w, hw, hfw⟩ := hfree
    obtain ⟨j, hj, hjw⟩ := probe_surj size h w hh hw
    apply hnone j (Nat.zero_le _) (by omega)
    rw [hjw]
    exact hfw

/-! ## Insertion without resize -/

/-- C9 (insert placement). In a well-formed table on which the overflow check
does not ask for a resize and that has a free (empty or tombstoned) slot,
`hash_table_insert` of a hashable key writes the pair into the first free slot
of the probe order `(hash % size + i) % size`, adds one to `key_count`, leaves
every other slot, the capacity and the type as they were, and returns 1. -/
theorem insert_placement (mem : Memory) (ht : hash_table) (k v : Ptr) (hv : Nat)
    (hwf : wf ht) (hno : hash_table_must_rehash ht = false)
    (hk : HASH mem ht k = some hv)
    (hfree : ∃ w, w < ht.size ∧ is_free (slot ht.table w)) :
    ∃ i ht1, i < ht.size ∧
      is_free (slot ht.table (probe ht hv i)) ∧
      (∀ j, j < i → ¬ is_free (slot ht.table (probe ht hv j))) ∧
      hash_table_insert mem ht k v = some (ht1, 1) ∧
      slot ht1.table (probe ht hv i) = ⟨k, v⟩ ∧
      (∀ w, w ≠ probe ht hv i → slot ht1.table w = slot ht.table w) ∧
      ht1.table.length = ht.table.length ∧
      ht1.key_count = ht.key_count + 1 ∧ ht1.size = ht.size ∧ ht1.type = ht.type := by
  have hh : hv % ht.size < ht.size := Nat.mod_lt _ hwf.2
  have hlt := insert_probe_lt ht.table ht.size (hv % ht.size) hh hfree
  obtain ⟨_, _, hnone, hstop⟩ := insert_probe_spec ht.table ht.size (hv % ht.size) ht.size 0
  refine ⟨insert_probe ht.table ht.size (hv % ht.size) ht.size 0,
    { ht with
      table := ht.table.set
        ((hv % ht.size + insert_probe ht.table ht.size (hv % ht.size) ht.size 0) % ht.size)
        ⟨k, v⟩,
      key_count := ht.key_count + 1 }, hlt, ?_, ?_, ?_, ?_, ?_, ?_, rfl, rfl, rfl⟩
  · exact hstop (by omega)
  · intro j hj
    exact hnone j (Nat.zero_le _) hj
  · unfold hash_table_insert hash_table_check_overflow
    rw [hno]
    simp only [Bool.false_eq_true, if_false]
    rw [hk]
    simp only [Nat.ne_of_lt hlt, if_false]
  · apply slot_set_eq
    rw [hwf.1]
    exact Nat.mod_lt _ hwf.2
  · intro w hw
    exact slot_set_ne _ _ _ _ hw
  · simp

/-! ## Lookup -/

/-- On hashable keys `EQUAL` is defined. -/
theorem EQUAL_defined (mem : Memory) (ht : hash_table) (a b : Ptr)
    (ha : HASH mem ht a ≠ none) (hb : HASH mem ht b ≠ none) :
    ∃ r, EQUAL mem ht a b = some r := by
  cases hty : ht.type with
  | HASH_KEY_PTR => exact ⟨decide (a = b), by simp only [EQUAL, hty]⟩
  | HASH_KEY_STR =>
    simp only [HASH, hty] at ha hb
    cases h1 : cstr mem a with
    | none => simp [h1] at ha
    | some s1 =>
      cases h2 : cstr mem b with
      | none => simp [h2] at hb
      | some s2 => exact ⟨decide (s1 = s2), by simp only [EQUAL, hty, h1, h2]⟩

/-- The loop of `lookup_entry` from round `i`: it returns the first slot
holding the key when no empty slot comes before it, and `NULL` when it meets an
empty slot first or runs through its rounds. -/
theorem lookup_loop_spec (mem : Memory) (ht : hash_table) (k : Ptr) (h : Nat)
    (hdef : ∀ w, is_occupied (slot ht.table w) →
      ∃ r, EQUAL mem ht (slot ht.table w).key k = some r) :
    ∀ n i,
      (∃ i1, lookup_loop mem ht k h n i = some (some ((h + i1) % ht.size)) ∧
        i ≤ i1 ∧ i1 < i + n ∧
        holds_key mem ht k (slot ht.table ((h + i1) % ht.size)) ∧
        ∀ j, i ≤ j → j < i1 → ¬ is_empty (slot ht.table ((h + j) % ht.size)) ∧
          ¬ holds_key mem ht k (slot ht.table ((h + j) % ht.size))) ∨
      (lookup_loop mem ht k h n i = some none ∧
        ((∃ i1, i ≤ i1 ∧ i1 < i + n ∧ is_empty (slot ht.table ((h + i1) % ht.size)) ∧
            ∀ j, i ≤ j → j < i1 → ¬ is_empty (slot ht.table ((h + j) % ht.size)) ∧
              ¬ holds_key mem ht k (slot ht.table ((h + j) % ht.size))) ∨
          (∀ j, i ≤ j → j < i + n → ¬ is_empty (slot ht.table ((h + j) % ht.size)) ∧
              ¬ holds_key mem ht k (slot ht.table ((h + j) % ht.size))))) := by
  intro n
  induction n with
  | zero =>
    intro i
    right
    refine ⟨rfl, Or.inr ?_⟩
    intro j h1 h2
    omega
  | succ n ih =>
    intro i
    by_cases he : (slot ht.table ((h + i) % ht.size)).key = NULL
    · right
      refine ⟨by simp only [lookup_loop, he, if_true], Or.inl ⟨i, Nat.le_refl _, by omega, he, ?_⟩⟩
      intro j h1 h2
      omega
    · -- the slot of round `i` is not empty; whether it holds the key decides
      have step : ¬ holds_key mem ht k (slot ht.table ((h + i) % ht.size)) →
          lookup_loop mem ht k h (n + 1) i = lookup_loop mem ht k h n (i + 1) := by
        intro hnh
        by_cases hr : (slot ht.table ((h + i) % ht.size)).key = REMOVED
        · have hne : ¬ (REMOVED = NULL) := by decide
          simp only [lookup_loop, hr, hne, if_true, if_false]
        · obtain ⟨r, hr2⟩ := hdef _ ⟨he, hr⟩
          cases r with
          | true => exact absurd ⟨⟨he, hr⟩, hr2⟩ hnh
          | false => simp only [lookup_loop, he, hr, if_false, hr2]
      by_cases hh : holds_key mem ht k (slot ht.table ((h + i) % ht.size))
      · left
        refine ⟨i, ?_, Nat.le_refl _, by omega, hh, ?_⟩
        · have hr : ¬ (slot ht.table ((h + i) % ht.size)).key = REMOVED := hh.1.2
          simp only [lookup_loop, he, hr, if_false, hh.2]
        · intro j h1 h2
          omega
      · rw [step hh]
        have ext : ∀ i1, (∀ j, i + 1 ≤ j → j < i1 →
            ¬ is_empty (slot ht.table ((h + j) % ht.size)) ∧
              ¬ holds_key mem ht k (slot ht.table ((h + j) % ht.size))) →
            ∀ j, i ≤ j → j < i1 → ¬ is_empty (slot ht.table ((h + j) % ht.size)) ∧
              ¬ holds_key mem ht k (slot ht.table ((h + j) % ht.size)) := by
          intro i1 hall j h1 h2
          by_cases hj : j = i
          · subst hj
            exact ⟨he, hh⟩
          · exact hall j (by omega) h2
        rcases ih (i + 1) with ⟨i1, e, a, b, c, d⟩ | ⟨e, ⟨i1, a, b, c, d⟩ | d⟩
        · left
          exact ⟨i1, e, by omega, by omega, c, ext i1 d⟩
        · right
          exact ⟨e, Or.inl ⟨i1, by omega, by omega, c, ext i1 d⟩⟩
        · right
          refine ⟨e, Or.inr ?_⟩
          intro j h1 h2
          exact ext (i + 1 + n) d j h1 (by omega)

/-- The keys of occupied slots compare without fault with a hashable key. -/
theorem EQUAL_defined_of_valid (mem : Memory) (ht : hash_table) (k : Ptr) (hv : Nat)
    (hkeys : keys_valid mem ht) (hk : HASH mem ht k = some hv) :
    ∀ w, is_occupied (slot ht.table w) →
      ∃ r, EQUAL mem ht (slot ht.table w).key k = some r := by
  intro w hocc
  have hmem : slot ht.table w ∈ ht.table := by
    rcases Nat.lt_or_ge w ht.table.length with hlt | hge
    · exact slot_mem _ _ hlt
    · exfalso
      have : slot ht.table w = empty_entry := by
        simp [slot, List.getD_eq_getElem?_getD, List.getElem?_eq_none hge]
      rw [this] at hocc
      exact hocc.1 rfl
  exact EQUAL_defined mem ht _ _ (hkeys _ hmem hocc) (by rw [hk]; exact Option.some_ne_none hv)

/-- The function `lookup_entry` returns the entry reached by the first round
that finds the key, and `NULL` when no round finds it. -/
theorem lookup_entry_spec (mem : Memory) (ht : hash_table) (k : Ptr) (hv : Nat)
    (hkeys : keys_valid mem ht) (hk : HASH mem ht k = some hv) :
    (∃ i, i < ht.size ∧ found_at mem ht k hv i ∧
        lookup_entry mem ht k = some (some (probe ht hv i))) ∨
    ((¬ ∃ i, i < ht.size ∧ found_at mem ht k hv i) ∧ lookup_entry mem ht k = some none) := by
  have hdef := EQUAL_defined_of_valid mem ht k hv hkeys hk
  have e : lookup_entry mem ht k = lookup_loop mem ht k (hv % ht.size) ht.size 0 := by
    simp only [lookup_entry, hk]
  rw [e]
  rcases lookup_loop_spec mem ht k (hv % ht.size) hdef ht.size 0 with
    ⟨i1, e1, _, b, c, d⟩ | ⟨e1, ⟨i1, _, b, c, d⟩ | d⟩
  · left
    exact ⟨i1, by omega, ⟨c, fun j hj => d j (Nat.zero_le _) hj⟩, e1⟩
  · right
    refine ⟨?_, e1⟩
    rintro ⟨i, hi, hfound, hbefore⟩
    rcases Nat.lt_trichotomy i i1 with hlt | heq | hgt
    · exact (d i (Nat.zero_le _) hlt).2 hfound
    · subst heq
      exact hfound.1.1 c
    · exact (hbefore i1 hgt).1 c
  · right
    refine ⟨?_, e1⟩
    rintro ⟨i, hi, hfound, _⟩
    exact (d i (Nat.zero_le _) (by omega)).2 hfound

/-- C8 (search semantics). On a well-formed table whose occupied keys are
valid, `hash_table_search` of a hashable key returns without fault and leaves
the table as it was. Its result is the value of the slot of the first round
`i < size` of the probe order `(hash % size + i) % size` that holds a key equal
to `k`, provided no empty slot is met before it (tombstones do not stop the
probe); when there is no such round the result is `NULL`, in particular when no
slot of the table holds the key, empty slots or not. -/
theorem search_semantics (mem : Memory) (ht : hash_table) (k : Ptr) (hv : Nat)
    (hwf : wf ht) (hkeys : keys_valid mem ht) (hk : HASH mem ht k = some hv) :
    ∃ r, hash_table_search mem ht k = some (ht, r) ∧
      ((∃ i, i < ht.size ∧ found_at mem ht k hv i ∧
          r = (slot ht.table (probe ht hv i)).value) ∨
        ((¬ ∃ i, i < ht.size ∧ found_at mem ht k hv i) ∧ r = NULL)) ∧
      ((∀ w, w < ht.size → ¬ holds_key mem ht k (slot ht.table w)) → r = NULL) := by
  rcases lookup_entry_spec mem ht k hv hkeys hk with ⟨i, hi, hf, e⟩ | ⟨hno, e⟩
  · refine ⟨(slot ht.table (probe ht hv i)).value, ?_, Or.inl ⟨i, hi, hf, rfl⟩, ?_⟩
    · simp only [hash_table_search, e]
    · intro hall
      exact absurd hf.1 (hall _ (probe_lt ht hv i hwf))
  · refine ⟨NULL, ?_, Or.inr ⟨hno, rfl⟩, fun _ => rfl⟩
    simp only [hash_table_search, e]

/-! ## Removal -/

/-- C10 (remove effect and frame). On a well-formed table whose occupied keys
are valid, for a hashable key `k`: when the lookup finds `k` (in round `i`),
`hash_table_remove` returns 1, stores in the out-cell the value that
`hash_table_search` returns, turns exactly the found slot into a tombstone with
a `NULL` value and leaves every other slot, `key_count`, the capacity and the
type unchanged; when the lookup does not find `k` it returns 0 and the table
and the out-cell are unchanged. -/
theorem remove_effect (mem : Memory) (ht : hash_table) (k : Ptr) (hv : Nat) (cell : Ptr)
    (hwf : wf ht) (hkeys : keys_valid mem ht) (hk : HASH mem ht k = some hv) :
    (∃ i ht1, i < ht.size ∧ found_at mem ht k hv i ∧
        hash_table_search mem ht k = some (ht, (slot ht.table (probe ht hv i)).value) ∧
        hash_table_remove mem ht k (some cell) =
          some (ht1, 1, some (slot ht.table (probe ht hv i)).value) ∧
        hash_table_remove mem ht k none = some (ht1, 1, none) ∧
        slot ht1.table (probe ht hv i) = ⟨REMOVED, NULL⟩ ∧
        (∀ w, w ≠ probe ht hv i → slot ht1.table w = slot ht.table w) ∧
        ht1.table.length = ht.table.length ∧
        ht1.key_count = ht.key_count ∧ ht1.size = ht.size ∧ ht1.type = ht.type) ∨
    ((¬ ∃ i, i < ht.size ∧ found_at mem ht k hv i) ∧
        hash_table_search mem ht k = some (ht, NULL) ∧
        ∀ p_value, hash_table_remove mem ht k p_value = some (ht, 0, p_value)) := by
  rcases lookup_entry_spec mem ht k hv hkeys hk with ⟨i, hi, hf, e⟩ | ⟨hno, e⟩
  · left
    refine ⟨i, { ht with table := ht.table.set (probe ht hv i) ⟨REMOVED, NULL⟩ }, hi, hf,
      ?_, ?_, ?_, ?_, ?_, ?_, rfl, rfl, rfl⟩
    · simp only [hash_table_search, e]
    · simp only [hash_table_remove, e]
    · simp only [hash_table_remove, e]
    · apply slot_set_eq
      rw [hwf.1]
      exact probe_lt ht hv i hwf
    · intro w hw
      exact slot_set_ne _ _ _ _ hw
    · simp
  · right
    refine ⟨hno, ?_, ?_⟩
    · simp only [hash_table_search, e]
    · intro p_value
      simp only [hash_table_remove, e]

/-! ## Counting slots -/

/-- Writing one slot adds at most one slot with a key other than `NULL`, and
none when the written key is `NULL`. -/
theorem nonnull_set_le (t : List hash_table_entry) (w : Nat) (e : hash_table_entry) :
    nonnull (t.set w e) ≤ nonnull t + (if e.key ≠ NULL then 1 else 0) := by
  rcases Nat.lt_or_ge w t.length with hlt | hge
  · unfold nonnull
    rw [List.countP_set _ _ _ _ hlt]
    have heq : (if decide (e.key ≠ NULL) = true then 1 else 0) =
        (if e.key ≠ NULL then (1 : Nat) else 0) := by
      by_cases h : e.key = NULL <;> simp [h]
    rw [heq]
    omega
  · rw [List.set_eq_of_length_le hge]
    omega

/-- Overwriting a slot whose key is not `NULL` does not add a non-empty slot. -/
theorem nonnull_set_of_nonnull (t : List hash_table_entry) (w : Nat) (e : hash_table_entry)
    (h : (slot t w).key ≠ NULL) : nonnull (t.set w e) ≤ nonnull t := by
  rcases Nat.lt_or_ge w t.length with hlt | hge
  · have hs : slot t w = t[w] := by
      simp [slot, List.getD_eq_getElem?_getD, List.getElem?_eq_getElem hlt]
    rw [hs] at h
    unfold nonnull
    rw [List.countP_set _ _ _ _ hlt]
    have hb := List.boole_getElem_le_countP (fun e => decide (e.key ≠ NULL)) t w hlt
    have h1 : decide (t[w].key ≠ NULL) = true := by simp [h]
    rw [h1, if_pos rfl] at hb
    rw [h1, if_pos rfl]
    split <;> omega
  · rw [List.set_eq_of_length_le hge]

/-- The occupied slots are among the non-empty ones. -/
theorem occupied_le_nonnull (ht : hash_table) : occupied ht ≤ nonnull ht.table := by
  unfold occupied nonnull
  apply List.countP_mono_left
  intro e _ h
  simp only [decide_eq_true_eq] at h ⊢
  exact h.1

/-- A table with fewer non-empty slots than slots has an empty slot. -/
theorem exists_empty_of_nonnull_lt (t : List hash_table_entry) (h : nonnull t < t.length) :
    ∃ w, w < t.length ∧ (slot t w).key = NULL := by
  have hne : ¬ (∀ e ∈ t, decide (e.key ≠ NULL) = true) := by
    intro hall
    have := (List.countP_eq_length (p := fun (e : hash_table_entry) => decide (e.key ≠ NULL))).2 hall
    unfold nonnull at h
    omega
  simp only [not_forall] at hne
  obtain ⟨e, hmem, hkey⟩ := hne
  obtain ⟨w, hw, rfl⟩ := List.getElem_of_mem hmem
  refine ⟨w, hw, ?_⟩
  simp only [ne_eq, decide_not, Bool.not_eq_true', decide_eq_false_iff_not, not_not] at hkey
  simpa [slot, List.getD_eq_getElem?_getD, List.getElem?_eq_getElem hw] using hkey

/-! ## Resize -/

/-- The macro `HASH` reads only the type of the table. -/
theorem HASH_of_type (mem : Memory) (ht1 ht2 : hash_table) (k : Ptr)
    (h : ht1.type = ht2.type) : HASH mem ht1 k = HASH mem ht2 k := by
  simp only [HASH, h, hash_pointer]

/-- On a pointer-keyed table `HASH` never faults. -/
theorem HASH_ptr (mem : Memory) (ht : hash_table) (k : Ptr)
    (h : ht.type = hash_table_type.HASH_KEY_PTR) : HASH mem ht k = some (himult64 k) := by
  simp only [HASH, h, hash_pointer]

/-- On a string-keyed table `HASH` faults on the keys `NULL` and `REMOVED`. -/
theorem HASH_str_free (mem : Memory) (ht : hash_table) (k : Ptr)
    (h : ht.type = hash_table_type.HASH_KEY_STR) (hk : k = NULL ∨ k = REMOVED) :
    HASH mem ht k = none := by
  simp only [HASH, h, cstr, hk, if_true, Option.map_none']

theorem nonnull_replicate_empty (n : Nat) : nonnull (List.replicate n empty_entry) = 0 := by
  unfold nonnull
  rw [List.countP_replicate]
  simp [empty_entry]

/-- What the outer loop of `hash_table_rehash` preserves when it completes. -/
theorem rehash_loop_spec (mem : Memory) :
    ∀ (old : List hash_table_entry) (ht ht1 : hash_table),
      rehash_loop mem ht old = some ht1 →
      ht1.type = ht.type ∧ ht1.size = ht.size ∧ ht1.key_count = ht.key_count ∧
        ht1.table.length = ht.table.length ∧
        nonnull ht1.table ≤ nonnull ht.table + nonnull old := by
  intro old
  induction old with
  | nil =>
    intro ht ht1 h
    simp only [rehash_loop, Option.some.injEq] at h
    subst h
    exact ⟨rfl, rfl, rfl, rfl, Nat.le_add_right _ _⟩
  | cons e old ih =>
    intro ht ht1 h
    unfold rehash_loop at h
    cases hh : HASH mem ht e.key with
    | none => simp [hh] at h
    | some hv =>
      simp only [hh] at h
      obtain ⟨a, b, c, d, f⟩ := ih _ _ h
      refine ⟨a, b, c, by simpa using d, ?_⟩
      have h1 := nonnull_set_le ht.table
        (rehash_probe ht.table ht.size (hv % ht.size) ht.size 0 0) ⟨e.key, e.value⟩
      have h2 : nonnull (e :: old) = nonnull old + (if e.key ≠ NULL then 1 else 0) := by
        unfold nonnull
        rw [List.countP_cons]
        by_cases hk : e.key = NULL <;> simp [hk]
      simp only at f h1
      omega

/-- On a pointer-keyed table the outer loop of `hash_table_rehash` completes. -/
theorem rehash_loop_total_ptr (mem : Memory) :
    ∀ (old : List hash_table_entry) (ht : hash_table),
      ht.type = hash_table_type.HASH_KEY_PTR → ∃ ht1, rehash_loop mem ht old = some ht1 := by
  intro old
  induction old with
  | nil =>
    intro ht _
    exact ⟨ht, rfl⟩
  | cons e old ih =>
    intro ht hty
    unfold rehash_loop
    rw [HASH_ptr mem ht e.key hty]
    exact ih _ hty

/-- On a string-keyed table the outer loop of `hash_table_rehash` faults as
soon as the old array has an empty or a tombstoned slot: `hash_str` is applied
to its key. -/
theorem rehash_loop_faults_str (mem : Memory) :
    ∀ (old : List hash_table_entry) (ht : hash_table),
      ht.type = hash_table_type.HASH_KEY_STR →
      (∃ e ∈ old, e.key = NULL ∨ e.key = REMOVED) → rehash_loop mem ht old = none := by
  intro old
  induction old with
  | nil =>
    intro ht _ h
    obtain ⟨e, he, _⟩ := h
    simp at he
  | cons e old ih =>
    intro ht hty h
    unfold rehash_loop
    cases hh : HASH mem ht e.key with
    | none => rfl
    | some hv =>
      simp only
      refine ih _ hty ?_
      obtain ⟨e1, he1, hk⟩ := h
      rcases List.mem_cons.1 he1 with heq | hmem
      · subst heq
        rw [HASH_str_free mem ht e1.key hty hk] at hh
        simp at hh
      · exact ⟨e1, hmem, hk⟩

/-- What `hash_table_rehash` does when it completes: the capacity doubles, the
type and `key_count` stay, and the non-empty slots do not increase. -/
theorem hash_table_rehash_spec (mem : Memory) (ht ht1 : hash_table)
    (h : hash_table_rehash mem ht = some ht1) :
    ht1.type = ht.type ∧ ht1.size = 2 * ht.size ∧ ht1.key_count = ht.key_count ∧
      ht1.table.length = 2 * ht.size ∧ nonnull ht1.table ≤ nonnull ht.table := by
  unfold hash_table_rehash at h
  obtain ⟨a, b, c, d, f⟩ := rehash_loop_spec mem _ _ _ h
  simp only [List.length_replicate, nonnull_replicate_empty, Nat.zero_add] at a b c d f
  exact ⟨a, b, c, d, f⟩

/-- On a pointer-keyed table `hash_table_rehash` completes. -/
theorem hash_table_rehash_total_ptr (mem : Memory) (ht : hash_table)
    (hty : ht.type = hash_table_type.HASH_KEY_PTR) :
    ∃ ht1, hash_table_rehash mem ht = some ht1 := by
  unfold hash_table_rehash
  exact rehash_loop_total_ptr mem _ _ hty

/-! ## The resize policy -/

/-- After the overflow check `key_count` is at most 16/23 of the capacity. -/
theorem check_overflow_spec (mem : Memory) (ht m : hash_table) (hinv : load_inv ht)
    (h : hash_table_check_overflow mem ht = some m) :
    m.type = ht.type ∧ m.table.length = m.size ∧ 64 ≤ m.size ∧
      nonnull m.table ≤ m.key_count ∧ 23 * m.key_count ≤ 16 * m.size ∧
      m.key_count = ht.key_count := by
  obtain ⟨h1, h2, h3, h4⟩ := hinv
  unfold hash_table_check_overflow at h
  by_cases hm : hash_table_must_rehash ht = true
  · simp only [hm, if_true] at h
    obtain ⟨a, b, c, d, f⟩ := hash_table_rehash_spec mem ht m h
    refine ⟨a, by omega, by omega, by omega, by omega, c⟩
  · simp only [hm, Bool.false_eq_true, if_false, Option.some.injEq] at h
    subst h
    simp only [hash_table_must_rehash, decide_eq_true_eq, not_lt, gt_iff_lt] at hm
    exact ⟨rfl, h1, h2, h3, hm, rfl⟩

/-- An insert that returns keeps the invariant of the resize policy, and it
returns 1: after the overflow check there is an empty slot. -/
theorem insert_keeps_load_inv (mem : Memory) (ht ht1 : hash_table) (k v : Ptr) (r : Int)
    (hinv : load_inv ht) (h : hash_table_insert mem ht k v = some (ht1, r)) :
    load_inv ht1 ∧ r = 1 := by
  unfold hash_table_insert at h
  cases hc : hash_table_check_overflow mem ht with
  | none => simp [hc] at h
  | some m =>
    obtain ⟨_, m1, m2, m3, m4, _⟩ := check_overflow_spec mem ht m hinv hc
    simp only [hc] at h
    cases hh : HASH mem m k with
    | none => simp [hh] at h
    | some hv =>
      simp only [hh] at h
      have hpos : 0 < m.size := by omega
      have hempty : ∃ w, w < m.size ∧ is_free (slot m.table w) := by
        obtain ⟨w, hw, hk⟩ := exists_empty_of_nonnull_lt m.table (by omega)
        exact ⟨w, by omega, Or.inl hk⟩
      have hlt := insert_probe_lt m.table m.size (hv % m.size) (Nat.mod_lt _ hpos) hempty
      simp only [Nat.ne_of_lt hlt, if_false, Option.some.injEq, Prod.mk.injEq] at h
      obtain ⟨h1, h2⟩ := h
      subst h1
      refine ⟨⟨by simpa using m1, m2, ?_, by simp only; omega⟩, h2.symm⟩
      have := nonnull_set_le m.table
        ((hv % m.size + insert_probe m.table m.size (hv % m.size) m.size 0) % m.size) ⟨k, v⟩
      simp only
      split at this <;> omega

/-- On a pointer-keyed table `hash_table_insert` never faults. -/
theorem insert_total_ptr (mem : Memory) (ht : hash_table) (k v : Ptr)
    (hty : ht.type = hash_table_type.HASH_KEY_PTR) :
    ∃ ht1 r, hash_table_insert mem ht k v = some (ht1, r) ∧
      ht1.type = hash_table_type.HASH_KEY_PTR := by
  have hc : ∃ m, hash_table_check_overflow mem ht = some m ∧
      m.type = hash_table_type.HASH_KEY_PTR := by
    unfold hash_table_check_overflow
    by_cases hm : hash_table_must_rehash ht = true
    · obtain ⟨m, hr⟩ := hash_table_rehash_total_ptr mem ht hty
      refine ⟨m, by simp only [hm, if_true, hr], ?_⟩
      rw [(hash_table_rehash_spec mem ht m hr).1, hty]
    · exact ⟨ht, by simp only [hm, Bool.false_eq_true, if_false], hty⟩
  obtain ⟨m, hc, hmty⟩ := hc
  unfold hash_table_insert
  rw [hc]
  simp only [HASH_ptr mem m k hmty]
  split
  · exact ⟨m, 0, rfl, hmty⟩
  · exact ⟨_, 1, rfl, hmty⟩

theorem load_inv_new (t : hash_table_type) : load_inv (hash_table_new t) := by
  refine ⟨?_, ?_, ?_, ?_⟩
  · simp [hash_table_new]
  · simp [hash_table_new, HASH_DEFAULT_SIZE]
  · simp [hash_table_new, nonnull_replicate_empty]
  · simp [hash_table_new]

/-- A sequence of inserts that completes keeps the invariant of the resize policy. -/
theorem insert_all_keeps_load_inv (mem : Memory) :
    ∀ (kvs : List (Ptr × Ptr)) (ht ht1 : hash_table),
      load_inv ht → insert_all mem ht kvs = some ht1 → load_inv ht1 := by
  intro kvs
  induction kvs with
  | nil =>
    intro ht ht1 hinv h
    simp only [insert_all, Option.some.injEq] at h
    subst h
    exact hinv
  | cons kv kvs ih =>
    intro ht ht1 hinv h
    obtain ⟨k, v⟩ := kv
    unfold insert_all at h
    cases hi : hash_table_insert mem ht k v with
    | none => simp [hi] at h
    | some p =>
      obtain ⟨m, r⟩ := p
      simp only [hi] at h
      exact ih m ht1 (insert_keeps_load_inv mem ht m k v r hinv hi).1 h

/-- On a pointer-keyed table a sequence of inserts completes. -/
theorem insert_all_total_ptr (mem : Memory) :
    ∀ (kvs : List (Ptr × Ptr)) (ht : hash_table),
      ht.type = hash_table_type.HASH_KEY_PTR → ∃ ht1, insert_all mem ht kvs = some ht1 := by
  intro kvs
  induction kvs with
  | nil =>
    intro ht _
    exact ⟨ht, rfl⟩
  | cons kv kvs ih =>
    intro ht hty
    obtain ⟨k, v⟩ := kv
    obtain ⟨m, r, hi, hmty⟩ := insert_total_ptr mem ht k v hty
    unfold insert_all
    simp only [hi]
    exact ih m hmty

/-- C3, as amended (load factor after an insert). For every sequence of
`hash_table_insert` calls from `hash_table_new` that completes, the occupied
slots exceed 16/23 of the capacity by at most one slot:
`23 * occupied <= 16 * size + 23` (the threshold 16/23 is tested on
`key_count` before the key is placed). On a pointer-keyed table every such
sequence completes. -/
theorem load_factor_after_inserts (mem : Memory) (t : hash_table_type)
    (kvs : List (Ptr × Ptr)) :
    (∀ ht, insert_all mem (hash_table_new t) kvs = some ht →
      23 * occupied ht ≤ 16 * ht.size + 23) ∧
    (t = hash_table_type.HASH_KEY_PTR →
      ∃ ht, insert_all mem (hash_table_new t) kvs = some ht) := by
  constructor
  · intro ht h
    obtain ⟨_, _, h3, h4⟩ := insert_all_keeps_load_inv mem kvs _ ht (load_inv_new t) h
    have := occupied_le_nonnull ht
    omega
  · intro hty
    exact insert_all_total_ptr mem kvs _ (by simp [hash_table_new, hty])

/-! ## The load factor at the threshold -/

/-- C3, counterexample. After 45 inserts of distinct keys into a new table
(pointer-keyed or string-keyed) no resize has happened: 45 slots of 64 are
occupied, and `10 * occupied <= 7 * size` is false in the state reached. -/
theorem load_factor_above_seven_tenths :
    ptr_table_45.map (fun ht => decide (10 * occupied ht ≤ 7 * ht.size)) = some false ∧
    ptr_table_45.map (fun ht => (occupied ht, ht.size)) = some (45, 64) ∧
    str_table_45.map (fun ht => decide (10 * occupied ht ≤ 7 * ht.size)) = some false ∧
    str_table_45.map (fun ht => (occupied ht, ht.size)) = some (45, 64) := by
  decide

/-- C3, witness: 45 inserts into a new pointer-keyed table. -/
theorem load_factor_after_inserts_witness :
    ∃ ht, insert_all sample_mem (hash_table_new hash_table_type.HASH_KEY_PTR)
        (sample_pairs 45) = some ht ∧
      23 * occupied ht ≤ 16 * ht.size + 23 := by
  obtain ⟨ht, e⟩ :=
    (load_factor_after_inserts sample_mem hash_table_type.HASH_KEY_PTR (sample_pairs 45)).2 rfl
  exact ⟨ht, e,
    (load_factor_after_inserts sample_mem hash_table_type.HASH_KEY_PTR (sample_pairs 45)).1 ht e⟩

/-! ## Instances on the sample inputs -/

theorem one_key_table_wf : wf one_key_table := by
  unfold wf
  decide

theorem one_key_table_keys_valid : keys_valid sample_mem one_key_table := by
  unfold keys_valid is_occupied
  decide

/-- The sample table `one_key_table` is the state after one insert into a new
string-keyed table. -/
theorem one_key_table_reached :
    hash_table_insert sample_mem (hash_table_new hash_table_type.HASH_KEY_STR) 1000 5000 =
      some (one_key_table, 1) := by
  decide

/-- C8, witness: searching the key at address 1000 in `one_key_table`. -/
theorem search_semantics_witness :
    wf one_key_table ∧ keys_valid sample_mem one_key_table ∧
    HASH sample_mem one_key_table 1000 = some 33 ∧
    ∃ r, hash_table_search sample_mem one_key_table 1000 = some (one_key_table, r) ∧
      ((∃ i, i < one_key_table.size ∧ found_at sample_mem one_key_table 1000 33 i ∧
          r = (slot one_key_table.table (probe one_key_table 33 i)).value) ∨
        ((¬ ∃ i, i < one_key_table.size ∧ found_at sample_mem one_key_table 1000 33 i) ∧
          r = NULL)) ∧
      ((∀ w, w < one_key_table.size →
          ¬ holds_key sample_mem one_key_table 1000 (slot one_key_table.table w)) →
        r = NULL) :=
  ⟨one_key_table_wf, one_key_table_keys_valid, rfl,
    search_semantics sample_mem one_key_table 1000 33 one_key_table_wf
      one_key_table_keys_valid rfl⟩

/-- C9, witness: inserting into a new string-keyed table. -/
theorem insert_placement_witness :
    wf (hash_table_new hash_table_type.HASH_KEY_STR) ∧
    hash_table_must_rehash (hash_table_new hash_table_type.HASH_KEY_STR) = false ∧
    HASH sample_mem (hash_table_new hash_table_type.HASH_KEY_STR) 1000 = some 33 ∧
    (∃ w, w < (hash_table_new hash_table_type.HASH_KEY_STR).size ∧
      is_free (slot (hash_table_new hash_table_type.HASH_KEY_STR).table w)) ∧
    ∃ i ht1, i < (hash_table_new hash_table_type.HASH_KEY_STR).size ∧
      is_free (slot (hash_table_new hash_table_type.HASH_KEY_STR).table
        (probe (hash_table_new hash_table_type.HASH_KEY_STR) 33 i)) ∧
      (∀ j, j < i → ¬ is_free (slot (hash_table_new hash_table_type.HASH_KEY_STR).table
        (probe (hash_table_new hash_table_type.HASH_KEY_STR) 33 j))) ∧
      hash_table_insert sample_mem (hash_table_new hash_table_type.HASH_KEY_STR) 1000 5000 =
        some (ht1, 1) ∧
      slot ht1.table (probe (hash_table_new hash_table_type.HASH_KEY_STR) 33 i) = ⟨1000, 5000⟩ ∧
      (∀ w, w ≠ probe (hash_table_new hash_table_type.HASH_KEY_STR) 33 i →
        slot ht1.table w = slot (hash_table_new hash_table_type.HASH_KEY_STR).table w) ∧
      ht1.table.length = (hash_table_new hash_table_type.HASH_KEY_STR).table.length ∧
      ht1.key_count = (hash_table_new hash_table_type.HASH_KEY_STR).key_count + 1 ∧
      ht1.size = (hash_table_new hash_table_type.HASH_KEY_STR).size ∧
      ht1.type = (hash_table_new hash_table_type.HASH_KEY_STR).type :=
  ⟨⟨rfl, by decide⟩, rfl, rfl, ⟨0, by decide, Or.inl rfl⟩,
    insert_placement sample_mem (hash_table_new hash_table_type.HASH_KEY_STR) 1000 5000 33
      ⟨rfl, by decide⟩ rfl rfl ⟨0, by decide, Or.inl rfl⟩⟩

/-- C10, witness: removing the key at address 1000 from `one_key_table`, with
an out-cell that holds 7. -/
theorem remove_effect_witness :
    wf one_key_table ∧ keys_valid sample_mem one_key_table ∧
    HASH sample_mem one_key_table 1000 = some 33 ∧
    ((∃ i ht1, i < one_key_table.size ∧ found_at sample_mem one_key_table 1000 33 i ∧
        hash_table_search sample_mem one_key_table 1000 =
          some (one_key_table, (slot one_key_table.table (probe one_key_table 33 i)).value) ∧
        hash_table_remove sample_mem one_key_table 1000 (some 7) =
          some (ht1, 1, some (slot one_key_table.table (probe one_key_table 33 i)).value) ∧
        hash_table_remove sample_mem one_key_table 1000 none = some (ht1, 1, none) ∧
        slot ht1.table (probe one_key_table 33 i) = ⟨REMOVED, NULL⟩ ∧
        (∀ w, w ≠ probe one_key_table 33 i →
          slot ht1.table w = slot one_key_table.table w) ∧
        ht1.table.length = one_key_table.table.length ∧
        ht1.key_count = one_key_table.key_count ∧ ht1.size = one_key_table.size ∧
        ht1.type = one_key_table.type) ∨
      ((¬ ∃ i, i < one_key_table.size ∧ found_at sample_mem one_key_table 1000 33 i) ∧
        hash_table_search sample_mem one_key_table 1000 = some (one_key_table, NULL) ∧
        ∀ p_value, hash_table_remove sample_mem one_key_table 1000 p_value =
          some (one_key_table, 0, p_value))) :=
  ⟨one_key_table_wf, one_key_table_keys_valid, rfl,
    remove_effect sample_mem one_key_table 1000 33 7 one_key_table_wf
      one_key_table_keys_valid rfl⟩

/-! ## The resize of a string-keyed table -/

/-- Under the invariant of the resize policy the array has an empty slot. -/
theorem load_inv_has_empty (ht : hash_table) (hinv : load_inv ht) :
    ∃ e ∈ ht.table, e.key = NULL ∨ e.key = REMOVED := by
  obtain ⟨h1, h2, h3, h4⟩ := hinv
  obtain ⟨w, hw, hk⟩ := exists_empty_of_nonnull_lt ht.table (by omega)
  exact ⟨slot ht.table w, slot_mem _ _ hw, Or.inl hk⟩

/-- On a string-keyed table an insert that asks for a resize faults: the
resize applies `hash_str` to the key of an empty slot. -/
theorem insert_faults_str_at_resize (mem : Memory) (ht : hash_table) (k v : Ptr)
    (hinv : load_inv ht) (hty : ht.type = hash_table_type.HASH_KEY_STR)
    (hm : hash_table_must_rehash ht = true) : hash_table_insert mem ht k v = none := by
  have hr : hash_table_rehash mem ht = none := by
    unfold hash_table_rehash
    exact rehash_loop_faults_str mem _ _ hty (load_inv_has_empty ht hinv)
  unfold hash_table_insert hash_table_check_overflow
  simp only [hm, if_true, hr]

/-- An insert without resize keeps the capacity and adds one to `key_count`. -/
theorem insert_no_resize_counts (mem : Memory) (ht ht1 : hash_table) (k v : Ptr) (r : Int)
    (hinv : load_inv ht) (hm : hash_table_must_rehash ht = false)
    (h : hash_table_insert mem ht k v = some (ht1, r)) :
    ht1.size = ht.size ∧ ht1.key_count = ht.key_count + 1 ∧ ht1.type = ht.type := by
  have hc : hash_table_check_overflow mem ht = some ht := by
    unfold hash_table_check_overflow
    simp only [hm, Bool.false_eq_true, if_false]
  obtain ⟨_, m1, m2, m3, m4, _⟩ := check_overflow_spec mem ht ht hinv hc
  unfold hash_table_insert at h
  simp only [hc] at h
  cases hh : HASH mem ht k with
  | none => simp [hh] at h
  | some hv =>
    simp only [hh] at h
    have hempty : ∃ w, w < ht.size ∧ is_free (slot ht.table w) := by
      obtain ⟨w, hw, hk⟩ := exists_empty_of_nonnull_lt ht.table (by omega)
      exact ⟨w, by omega, Or.inl hk⟩
    have hlt := insert_probe_lt ht.table ht.size (hv % ht.size)
      (Nat.mod_lt _ (by omega)) hempty
    simp only [Nat.ne_of_lt hlt, if_false, Option.some.injEq, Prod.mk.injEq] at h
    obtain ⟨h1, _⟩ := h
    subst h1
    exact ⟨rfl, rfl, rfl⟩

/-- A string-keyed table of capacity 64 does not get past its 46th insert,
whatever the memory and the keys. -/
theorem str_inserts_fault (mem : Memory) :
    ∀ (kvs : List (Ptr × Ptr)) (ht : hash_table),
      load_inv ht → ht.type = hash_table_type.HASH_KEY_STR → ht.size = 64 →
      ht.key_count ≤ 45 → 46 ≤ ht.key_count + kvs.length →
      insert_all mem ht kvs = none := by
  intro kvs
  induction kvs with
  | nil =>
    intro ht _ _ _ h1 h2
    simp only [List.length_nil] at h2
    omega
  | cons kv kvs ih =>
    intro ht hinv hty hsz h1 h2
    obtain ⟨k, v⟩ := kv
    unfold insert_all
    by_cases hm : hash_table_must_rehash ht = true
    · rw [insert_faults_str_at_resize mem ht k v hinv hty hm]
    · have hm2 : hash_table_must_rehash ht = false := by simpa using hm
      cases hi : hash_table_insert mem ht k v with
      | none => rfl
      | some p =>
        obtain ⟨m, r⟩ := p
        simp only
        obtain ⟨a, b, c⟩ := insert_no_resize_counts mem ht m k v r hinv hm2 hi
        have hlt : ht.key_count < 45 := by
          simp only [hash_table_must_rehash, decide_eq_false_iff_not, not_lt, gt_iff_lt] at hm2
          omega
        refine ih m (insert_keeps_load_inv mem ht m k v r hinv hi).1 (by rw [c, hty])
          (by omega) (by omega) ?_
        simp only [List.length_cons] at h2
        omega

/-- C6 (the concrete scenario), on the code: whatever the memory and the 50
keys, the inserts into a new string-keyed table do not complete; the resize
asked for by the 46th insert faults. -/
theorem fifty_string_keys_fault (mem : Memory) (kvs : List (Ptr × Ptr))
    (hlen : kvs.length = 50) :
    insert_all mem (hash_table_new hash_table_type.HASH_KEY_STR) kvs = none := by
  apply str_inserts_fault mem kvs _ (load_inv_new _) rfl rfl
  · simp [hash_table_new]
  · simp [hash_table_new, hlen]

/-- C6, witness: 50 distinct one-character string keys. -/
theorem fifty_string_keys_fault_witness :
    (sample_pairs 50).length = 50 ∧
    insert_all sample_mem (hash_table_new hash_table_type.HASH_KEY_STR) (sample_pairs 50) =
      none :=
  ⟨by decide, fifty_string_keys_fault sample_mem (sample_pairs 50) (by decide)⟩

/-! ## Reachable states -/

/-- An entry returned by the loop of `lookup_entry` has a key other than `NULL`. -/
theorem lookup_loop_nonnull (mem : Memory) (ht : hash_table) (k : Ptr) (h : Nat) :
    ∀ n i w, lookup_loop mem ht k h n i = some (some w) → (slot ht.table w).key ≠ NULL := by
  intro n
  induction n with
  | zero =>
    intro i w hl
    simp [lookup_loop] at hl
  | succ n ih =>
    intro i w hl
    unfold lookup_loop at hl
    by_cases he : (slot ht.table ((h + i) % ht.size)).key = NULL
    · simp [he] at hl
    · by_cases hr : (slot ht.table ((h + i) % ht.size)).key = REMOVED
      · simp only [he, hr, if_true, if_false] at hl
        exact ih _ _ hl
      · simp only [he, hr, if_false] at hl
        cases heq : EQUAL mem ht (slot ht.table ((h + i) % ht.size)).key k with
        | none => simp [heq] at hl
        | some b =>
          cases b with
          | true =>
            simp only [heq, Option.some.injEq] at hl
            rw [← hl]
            exact he
          | false =>
            simp only [heq] at hl
            exact ih _ _ hl

/-- A remove that returns keeps the invariant of the resize policy. -/
theorem remove_keeps_load_inv (mem : Memory) (ht ht1 : hash_table) (k : Ptr)
    (pv : Option Ptr) (r : Int × Option Ptr) (hinv : load_inv ht)
    (h : hash_table_remove mem ht k pv = some (ht1, r)) : load_inv ht1 := by
  unfold hash_table_remove at h
  cases hl : lookup_entry mem ht k with
  | none => simp [hl] at h
  | some o =>
    cases o with
    | none =>
      simp only [hl, Option.some.injEq, Prod.mk.injEq] at h
      rw [← h.1]
      exact hinv
    | some w =>
      simp only [hl, Option.some.injEq, Prod.mk.injEq] at h
      obtain ⟨h1, _⟩ := h
      subst h1
      obtain ⟨a, b, c, d⟩ := hinv
      have hw : (slot ht.table w).key ≠ NULL := by
        unfold lookup_entry at hl
        cases hh : HASH mem ht k with
        | none => simp [hh] at hl
        | some hv =>
          simp only [hh] at hl
          exact lookup_loop_nonnull mem ht k _ _ _ _ hl
      have := nonnull_set_of_nonnull ht.table w ⟨REMOVED, NULL⟩ hw
      exact ⟨by simpa using a, b, by simp only; omega, d⟩

/-- A search that returns hands back the table it was given. -/
theorem search_keeps_table (mem : Memory) (ht ht1 : hash_table) (k r : Ptr)
    (h : hash_table_search mem ht k = some (ht1, r)) : ht1 = ht := by
  unfold hash_table_search at h
  cases hl : lookup_entry mem ht k with
  | none => simp [hl] at h
  | some o =>
    cases o with
    | none =>
      simp only [hl, Option.some.injEq, Prod.mk.injEq] at h
      exact h.1.symm
    | some w =>
      simp only [hl, Option.some.injEq, Prod.mk.injEq] at h
      exact h.1.symm

/-- Every state reached by calls of the interface satisfies the invariant of
the resize policy. -/
theorem run_calls_keeps_load_inv (mem : Memory) :
    ∀ (cs : List call) (ht ht1 : hash_table),
      load_inv ht → run_calls mem ht cs = some ht1 → load_inv ht1 := by
  intro cs
  induction cs with
  | nil =>
    intro ht ht1 hinv h
    simp only [run_calls, Option.some.injEq] at h
    subst h
    exact hinv
  | cons c cs ih =>
    intro ht ht1 hinv h
    cases c with
    | insert k v =>
      unfold run_calls at h
      cases hi : hash_table_insert mem ht k v with
      | none => simp [hi] at h
      | some p =>
        obtain ⟨m, r⟩ := p
        simp only [hi] at h
        exact ih m ht1 (insert_keeps_load_inv mem ht m k v r hinv hi).1 h
    | remove k =>
      unfold run_calls at h
      cases hi : hash_table_remove mem ht k none with
      | none => simp [hi] at h
      | some p =>
        obtain ⟨m, r⟩ := p
        simp only [hi] at h
        exact ih m ht1 (remove_keeps_load_inv mem ht m k none r hinv hi) h
    | search k =>
      unfold run_calls at h
      cases hi : hash_table_search mem ht k with
      | none => simp [hi] at h
      | some p =>
        obtain ⟨m, r⟩ := p
        simp only [hi] at h
        rw [search_keeps_table mem ht m k r hi] at h
        exact ih ht ht1 hinv h

/-- In a state reached from `hash_table_new` by calls of the interface,
`hash_table_insert` never returns 0: when it returns, it returns 1; on a
pointer-keyed table it returns. -/
theorem insert_never_reports_full (mem : Memory) (t : hash_table_type) (cs : List call)
    (ht : hash_table) (k v : Ptr)
    (hreach : run_calls mem (hash_table_new t) cs = some ht) :
    (∀ ht1 r, hash_table_insert mem ht k v = some (ht1, r) → r = 1) ∧
    (ht.type = hash_table_type.HASH_KEY_PTR →
      ∃ ht1, hash_table_insert mem ht k v = some (ht1, 1)) := by
  have hinv := run_calls_keeps_load_inv mem cs _ ht (load_inv_new t) hreach
  constructor
  · intro ht1 r h
    exact (insert_keeps_load_inv mem ht ht1 k v r hinv h).2
  · intro hty
    obtain ⟨ht1, r, h, _⟩ := insert_total_ptr mem ht k v hty
    have hr := (insert_keeps_load_inv mem ht ht1 k v r hinv h).2
    subst hr
    exact ⟨ht1, h⟩

/-! ## The code at the failing inputs -/

/-- C1 (round trip), on the code: in a string-keyed table the first 45 inserts
of distinct keys complete and every key is found with its value, and the 46th
insert, which asks for the resize, faults, so that no key can be searched
afterwards. -/
theorem round_trip_faults_on_string_table :
    (∀ kv ∈ sample_pairs 45,
      (str_table_45.bind (fun ht => hash_table_search sample_mem ht kv.1)).map Prod.snd =
        some kv.2) ∧
    str_table_45.map (fun ht => (ht.size, ht.key_count)) = some (64, 45) ∧
    str_table_45.bind (fun ht => hash_table_insert sample_mem ht 1045 5045) = none ∧
    insert_all sample_mem (hash_table_new hash_table_type.HASH_KEY_STR) (sample_pairs 46) =
      none := by
  decide

/-- C2 (tombstone), on the code: in the string-keyed table with 45 keys,
removing the key at 1000 returns 1 with its value, the search then returns
`NULL`, and inserting that key again, which asks for the resize, faults. -/
theorem reinsert_after_remove_faults_on_string_table :
    (str_table_45.bind (fun ht => hash_table_remove sample_mem ht 1000 (some 0))).map
        Prod.snd = some (1, some 5000) ∧
    ((str_table_45.bind (fun ht => hash_table_remove sample_mem ht 1000 (some 0))).bind
        (fun r => hash_table_search sample_mem r.1 1000)).map Prod.snd = some NULL ∧
    (str_table_45.bind (fun ht => hash_table_remove sample_mem ht 1000 (some 0))).bind
        (fun r => hash_table_insert sample_mem r.1 1000 5999) = none := by
  decide

/-- C4 (resize preserves content), on the code: `hash_table_rehash` faults on
a new string-keyed table and on the string-keyed table with 45 keys. -/
theorem rehash_faults_on_string_table :
    hash_table_rehash sample_mem (hash_table_new hash_table_type.HASH_KEY_STR) = none ∧
    str_table_45.map (fun ht => hash_table_must_rehash ht) = some true ∧
    str_table_45.bind (fun ht => hash_table_rehash sample_mem ht) = none := by
  decide

/-- C5 (resize drops tombstones), on the code: in the pointer-keyed table with
45 keys, after the key 1000 is removed the 46th insert asks for the resize; the
new array of 128 slots holds the 45 live keys and one slot whose key is
`REMOVED`, and `key_count` is 46. -/
theorem rehash_keeps_tombstone :
    ((ptr_table_45.bind (fun ht => hash_table_remove sample_mem ht 1000 none)).bind
        (fun r => hash_table_insert sample_mem r.1 1045 5045)).map
      (fun r => (r.2, r.1.size, occupied r.1, tombstones r.1, r.1.key_count)) =
      some (1, 128, 45, 1, 46) ∧
    ((ptr_table_45.bind (fun ht => hash_table_remove sample_mem ht 1000 none)).bind
        (fun r => hash_table_rehash sample_mem r.1)).map
      (fun ht => (ht.size, tombstones ht)) = some (128, 1) := by
  decide

/-- C7 (insert returns 1), on the code: from the string-keyed table with 45
keys, after a remove and a search, the next insert does not return: it
faults in the resize. -/
theorem insert_faults_in_reachable_string_table :
    ((str_table_45.bind (fun ht => hash_table_remove sample_mem ht 1003 none)).bind
        (fun r => hash_table_search sample_mem r.1 1004)).map Prod.snd = some 5004 ∧
    ((str_table_45.bind (fun ht => hash_table_remove sample_mem ht 1003 none)).bind
        (fun r => hash_table_search sample_mem r.1 1004)).bind
      (fun r => hash_table_insert sample_mem r.1 1050 5050) = none := by
  decide

/-! ## Insertion into a full table -/

/-- C11 (insert failure). On any well-formed table, reachable or not, on which
the overflow check asks for no resize, `hash_table_insert` of a hashable key
returns 0 or 1; it returns 0 exactly when no slot of the table is empty or
tombstoned, and then the whole table (slots, `key_count`, capacity) is
unchanged. -/
theorem insert_failure (mem : Memory) (ht : hash_table) (k v : Ptr) (hv : Nat)
    (hwf : wf ht) (hno : hash_table_must_rehash ht = false)
    (hk : HASH mem ht k = some hv) :
    ∃ ht1 r, hash_table_insert mem ht k v = some (ht1, r) ∧ (r = 0 ∨ r = 1) ∧
      (r = 0 ↔ ∀ w, w < ht.size → ¬ is_free (slot ht.table w)) ∧
      (r = 0 → ht1 = ht) := by
  have hh : hv % ht.size < ht.size := Nat.mod_lt _ hwf.2
  obtain ⟨_, hle, hnone, hstop⟩ :=
    insert_probe_spec ht.table ht.size (hv % ht.size) ht.size 0
  have hins : hash_table_insert mem ht k v =
      (if insert_probe ht.table ht.size (hv % ht.size) ht.size 0 = ht.size then some (ht, 0)
       else some ({ ht with
          table := ht.table.set
            ((hv % ht.size + insert_probe ht.table ht.size (hv % ht.size) ht.size 0) % ht.size)
            ⟨k, v⟩,
          key_count := ht.key_count + 1 }, 1)) := by
    unfold hash_table_insert hash_table_check_overflow
    rw [hno]
    simp only [Bool.false_eq_true, if_false]
    rw [hk]
  by_cases hp : insert_probe ht.table ht.size (hv % ht.size) ht.size 0 = ht.size
  · refine ⟨ht, 0, by rw [hins, if_pos hp], Or.inl rfl, ?_, fun _ => rfl⟩
    constructor
    · intro _ w hw hfw
      obtain ⟨j, hj, hjw⟩ := probe_surj ht.size (hv % ht.size) w hh hw
      apply hnone j (Nat.zero_le _) (by omega)
      rw [hjw]
      exact hfw
    · intro _
      rfl
  · refine ⟨_, 1, by rw [hins, if_neg hp], Or.inr rfl, ?_, ?_⟩
    · constructor
      · intro h
        exact absurd h (by decide)
      · intro hall
        exfalso
        exact hall _ (Nat.mod_lt _ hwf.2) (hstop (by omega))
    · intro h
      exact absurd h (by decide)

/-- C11, witness: inserting into the full two-slot table. -/
theorem insert_failure_witness :
    wf full_table ∧ hash_table_must_rehash full_table = false ∧
    HASH sample_mem full_table 24 = some (himult64 24) ∧
    ∃ ht1 r, hash_table_insert sample_mem full_table 24 25 = some (ht1, r) ∧
      (r = 0 ∨ r = 1) ∧
      (r = 0 ↔ ∀ w, w < full_table.size → ¬ is_free (slot full_table.table w)) ∧
      (r = 0 → ht1 = full_table) :=
  ⟨⟨rfl, by decide⟩, rfl, rfl,
    insert_failure sample_mem full_table 24 25 (himult64 24) ⟨rfl, by decide⟩ rfl rfl⟩

/-! ## The string hash -/

/-- One round of `hash_str` is the step of the specification on the
character converted to 32 bits. -/
theorem hash_str_step_eq (h : Nat) (c : Int) :
    hash_str_step h c = pjw_step h (char_to_u32 c) := by
  have e : ((((h * 16 : Nat) : Int) + c).emod (2 ^ 32)).toNat =
      (h * 16 + (c % 2 ^ 32).toNat) % 2 ^ 32 := by
    have : (((h * 16 : Nat) : Int) + c).emod (2 ^ 32) = (((h * 16 : Nat) : Int) + c) % 2 ^ 32 := rfl
    rw [this]
    omega
  simp only [hash_str_step, pjw_step, char_to_u32]
  rw [e]

/-- Clearing the high nibble: the result of a round has its top four bits
(and every bit above the 32nd) clear. -/
theorem fold_high_nibble_lt (t : Nat) :
    (if t &&& 0xF0000000 ≠ 0 then t ^^^ ((t &&& 0xF0000000) >>> 24) else t) &&&
      (0xFFFFFFFF ^^^ (t &&& 0xF0000000)) < 2 ^ 28 := by
  apply Nat.lt_pow_two_of_testBit
  intro i hi
  rw [Nat.testBit_and, Nat.testBit_xor, Nat.testBit_and]
  rcases Nat.lt_or_ge i 32 with hlt | hge
  · have hm : Nat.testBit 0xFFFFFFFF i = true := by
      interval_cases i <;> decide
    have hn : Nat.testBit 0xF0000000 i = true := by
      interval_cases i <;> decide
    have hshift : Nat.testBit ((t &&& 0xF0000000) >>> 24) i = false := by
      rw [Nat.testBit_shiftRight, Nat.testBit_and]
      have : Nat.testBit 0xF0000000 (24 + i) = false := by
        apply Nat.testBit_lt_two_pow
        calc 0xF0000000 < 2 ^ 32 := by decide
          _ ≤ 2 ^ (24 + i) := Nat.pow_le_pow_right (by decide) (by omega)
      rw [this, Bool.and_false]
    have hb : Nat.testBit (if t &&& 0xF0000000 ≠ 0 then t ^^^ ((t &&& 0xF0000000) >>> 24)
        else t) i = Nat.testBit t i := by
      split
      · rw [Nat.testBit_xor, hshift, Bool.xor_false]
      · rfl
    rw [hb, hm, hn]
    cases Nat.testBit t i <;> rfl
  · have hm : Nat.testBit 0xFFFFFFFF i = false := by
      apply Nat.testBit_lt_two_pow
      calc 0xFFFFFFFF < 2 ^ 32 := by decide
        _ ≤ 2 ^ i := Nat.pow_le_pow_right (by decide) hge
    have hn : Nat.testBit 0xF0000000 i = false := by
      apply Nat.testBit_lt_two_pow
      calc 0xF0000000 < 2 ^ 32 := by decide
        _ ≤ 2 ^ i := Nat.pow_le_pow_right (by decide) hge
    rw [hm, hn, Bool.and_false]
    simp

/-- Every round of `hash_str` leaves an accumulator below `2^28`. -/
theorem hash_str_step_lt (h : Nat) (c : Int) : hash_str_step h c < 2 ^ 28 := by
  simp only [hash_str_step]
  exact fold_high_nibble_lt _

theorem foldl_hash_str_step_lt (s : List Int) :
    ∀ h, h < 2 ^ 28 → s.foldl hash_str_step h < 2 ^ 28 := by
  induction s with
  | nil =>
    intro h hh
    exact hh
  | cons c s ih =>
    intro h _
    exact ih _ (hash_str_step_lt h c)

/-- C20 (string hash range). For every string, of any length and any
character values, `hash_str` is below `2^28`: the top four bits of the 32-bit
result are zero. -/
theorem hash_str_lt (s : List Int) : hash_str s < 2 ^ 28 := by
  unfold hash_str
  exact foldl_hash_str_step_lt s 0 (by decide)

theorem pjw_step_mod (h c : Nat) : pjw_step h (c % 2 ^ 32) = pjw_step h c := by
  simp only [pjw_step, Nat.add_mod_mod]

theorem char_to_u32_ofNat (c : Nat) : char_to_u32 (Int.ofNat c) = c % 2 ^ 32 := by
  unfold char_to_u32
  have : (Int.ofNat c) % 2 ^ 32 = ((c % 2 ^ 32 : Nat) : Int) := by
    simp
  rw [this, Int.toNat_ofNat]

theorem foldl_hash_str_step_eq (s : List Int) :
    ∀ h, s.foldl hash_str_step h = s.foldl (fun h c => pjw_step h (char_to_u32 c)) h := by
  induction s with
  | nil =>
    intro h
    rfl
  | cons c s ih =>
    intro h
    simp only [List.foldl_cons, hash_str_step_eq, ih]

theorem foldl_hash_str_step_bytes (s : List Nat) :
    ∀ h, (s.map Int.ofNat).foldl hash_str_step h = s.foldl pjw_step h := by
  induction s with
  | nil =>
    intro h
    rfl
  | cons c s ih =>
    intro h
    simp only [List.map_cons, List.foldl_cons, hash_str_step_eq, char_to_u32_ofNat,
      pjw_step_mod, ih]

set_option maxRecDepth 100000 in
theorem hash_str_ascii (c : Fin 128) : hash_str [Int.ofNat c.val] = c.val := by
  revert c
  decide

/-- The 32-bit value with which a byte from 0x80 on enters a round of
`hash_str` where `char` is signed: the byte with the upper 24 bits set. -/
theorem char_to_u32_signed_high (b : Nat) (h1 : 128 ≤ b) (h2 : b < 256) :
    char_to_u32 (char_value true b) = b + 0xFFFFFF00 := by
  have hv : char_value true b = (b : Int) - 256 := by
    unfold char_value
    rw [if_pos ⟨rfl, h1⟩]
  rw [hv]
  unfold char_to_u32
  omega

/-- A byte that `char` holds as a non-negative value is its own `char` value. -/
theorem char_value_low (char_signed : Bool) (b : Nat)
    (h : b < 128 ∨ char_signed = false) : char_value char_signed b = Int.ofNat b := by
  unfold char_value
  rcases h with h | h
  · have : ¬ 128 ≤ b := by omega
    simp [this]
  · simp [h]

/-- C19, as amended (string hash definition). For every byte string,
`hash_str` is the left fold, from 0, of the 32-bit step of the specification
(`t = (h * 16 + c) mod 2^32`, `g = t AND 0xF0000000`,
`(if g != 0 then t XOR (g >> 24) else t) AND NOT g`) over the bytes, each byte
entering as its `char` value converted to 32 bits. Where `char` is signed a
byte from 0x80 on enters as the byte plus `0xFFFFFF00`. When every byte is
below 0x80, or `char` is unsigned, the step is applied to the bytes
themselves. The hash of the empty string is 0 and the hash of a one-character
ASCII string is the code of the character. -/
theorem hash_str_of_bytes (char_signed : Bool) (s : List Nat) :
    hash_str (s.map (char_value char_signed)) =
      s.foldl (fun h b => pjw_step h (char_to_u32 (char_value char_signed b))) 0 ∧
    ((∀ b ∈ s, b < 128 ∨ char_signed = false) →
      hash_str (s.map (char_value char_signed)) = s.foldl pjw_step 0) ∧
    (∀ b, 128 ≤ b → b < 256 → char_to_u32 (char_value true b) = b + 0xFFFFFF00) ∧
    hash_str ([].map (char_value char_signed)) = 0 ∧
    (∀ c : Nat, c < 128 → hash_str ([c].map (char_value char_signed)) = c) := by
  refine ⟨?_, ?_, char_to_u32_signed_high, rfl, ?_⟩
  · unfold hash_str
    rw [foldl_hash_str_step_eq, List.foldl_map]
  · intro hs
    have hmap : s.map (char_value char_signed) = s.map Int.ofNat :=
      List.map_congr_left (fun b hb => char_value_low char_signed b (hs b hb))
    rw [hmap]
    exact foldl_hash_str_step_bytes s 0
  · intro c hc
    rw [List.map_cons, List.map_nil, char_value_low char_signed c (Or.inl hc)]
    exact hash_str_ascii ⟨c, hc⟩

/-- C19, witness: the ASCII string `"AB"` where `char` is signed. -/
theorem hash_str_of_bytes_witness :
    (∀ b ∈ [65, 66], b < 128 ∨ true = false) ∧
    hash_str ([65, 66].map (char_value true)) = [65, 66].foldl pjw_step 0 :=
  ⟨by decide, (hash_str_of_bytes true [65, 66]).2.1 (by decide)⟩

/-- C19, counterexample. Where `char` is signed the one-byte string `"\xff"`
has the hash 268435215 (`0x0FFFFF0F`), while the fold of the step over the
byte 255 itself gives 255. -/
theorem hash_str_high_byte_signed :
    hash_str ([255].map (char_value true)) = 268435215 ∧
    [255].foldl pjw_step 0 = 255 ∧
    hash_str ([255].map (char_value true)) ≠ [255].foldl pjw_step 0 := by
  decide

/-! ## The counter `key_count` and the capacity -/

/-- An insert that returns in a state satisfying the invariant of the resize
policy adds one to `key_count`, doubles the capacity exactly when the overflow
test held on entry, and keeps the type. -/
theorem insert_counts (mem : Memory) (ht ht1 : hash_table) (k v : Ptr) (r : Int)
    (hinv : load_inv ht) (h : hash_table_insert mem ht k v = some (ht1, r)) :
    ht1.key_count = ht.key_count + 1 ∧
      ht1.size = (if hash_table_must_rehash ht = true then 2 * ht.size else ht.size) ∧
      ht1.type = ht.type := by
  by_cases hm : hash_table_must_rehash ht = true
  · unfold hash_table_insert at h
    cases hc : hash_table_check_overflow mem ht with
    | none => simp [hc] at h
    | some m =>
      obtain ⟨mty, m1, m2, m3, m4, mkc⟩ := check_overflow_spec mem ht m hinv hc
      have hsz : m.size = 2 * ht.size := by
        unfold hash_table_check_overflow at hc
        simp only [hm, if_true] at hc
        exact (hash_table_rehash_spec mem ht m hc).2.1
      simp only [hc] at h
      cases hh : HASH mem m k with
      | none => simp [hh] at h
      | some hv =>
        simp only [hh] at h
        have hempty : ∃ w, w < m.size ∧ is_free (slot m.table w) := by
          obtain ⟨w, hw, hk⟩ := exists_empty_of_nonnull_lt m.table (by omega)
          exact ⟨w, by omega, Or.inl hk⟩
        have hlt := insert_probe_lt m.table m.size (hv % m.size)
          (Nat.mod_lt _ (by omega)) hempty
        simp only [Nat.ne_of_lt hlt, if_false, Option.some.injEq, Prod.mk.injEq] at h
        obtain ⟨h1, _⟩ := h
        subst h1
        simp only [hm, if_true]
        exact ⟨by omega, hsz, mty⟩
  · have hm2 : hash_table_must_rehash ht = false := by simpa using hm
    obtain ⟨a, b, c⟩ := insert_no_resize_counts mem ht ht1 k v r hinv hm2 h
    simp only [hm, if_false]
    exact ⟨b, a, c⟩

/-- A remove that returns keeps `key_count`, the capacity and the type. -/
theorem remove_counts (mem : Memory) (ht ht1 : hash_table) (k : Ptr)
    (pv : Option Ptr) (r : Int × Option Ptr)
    (h : hash_table_remove mem ht k pv = some (ht1, r)) :
    ht1.key_count = ht.key_count ∧ ht1.size = ht.size ∧ ht1.type = ht.type := by
  unfold hash_table_remove at h
  cases hl : lookup_entry mem ht k with
  | none => simp [hl] at h
  | some o =>
    cases o with
    | none =>
      simp only [hl, Option.some.injEq, Prod.mk.injEq] at h
      rw [← h.1]
      exact ⟨rfl, rfl, rfl⟩
    | some w =>
      simp only [hl, Option.some.injEq, Prod.mk.injEq] at h
      rw [← h.1]
      exact ⟨rfl, rfl, rfl⟩

/-- Along a sequence of calls that completes, `key_count` grows by the number
of inserts, and the capacity does not decrease and is multiplied by a power of
two. -/
theorem run_calls_counts (mem : Memory) :
    ∀ (cs : List call) (ht ht1 : hash_table),
      load_inv ht → run_calls mem ht cs = some ht1 →
      ht1.key_count = ht.key_count + insert_calls cs ∧ ht1.type = ht.type ∧
        ∃ n, ht1.size = ht.size * 2 ^ n := by
  intro cs
  induction cs with
  | nil =>
    intro ht ht1 _ h
    simp only [run_calls, Option.some.injEq] at h
    subst h
    exact ⟨by simp [insert_calls], rfl, 0, by simp⟩
  | cons c cs ih =>
    intro ht ht1 hinv h
    cases c with
    | insert k v =>
      unfold run_calls at h
      cases hi : hash_table_insert mem ht k v with
      | none => simp [hi] at h
      | some p =>
        obtain ⟨m, r⟩ := p
        simp only [hi] at h
        obtain ⟨a, b, c⟩ := insert_counts mem ht m k v r hinv hi
        obtain ⟨d, e, n, f⟩ := ih m ht1 (insert_keeps_load_inv mem ht m k v r hinv hi).1 h
        refine ⟨?_, by rw [e, c], ?_⟩
        · simp only [insert_calls, List.countP_cons, if_true] at d ⊢
          omega
        · by_cases hm : hash_table_must_rehash ht = true
          · simp only [hm, if_true] at b
            refine ⟨n + 1, ?_⟩
            rw [f, b, Nat.pow_succ]
            ring
          · have hm2 : hash_table_must_rehash ht = false := by simpa using hm
            simp only [hm2, Bool.false_eq_true, if_false] at b
            exact ⟨n, by rw [f, b]⟩
    | remove k =>
      unfold run_calls at h
      cases hi : hash_table_remove mem ht k none with
      | none => simp [hi] at h
      | some p =>
        obtain ⟨m, r⟩ := p
        simp only [hi] at h
        obtain ⟨a, b, c⟩ := remove_counts mem ht m k none r hi
        obtain ⟨d, e, n, f⟩ := ih m ht1 (remove_keeps_load_inv mem ht m k none r hinv hi) h
        refine ⟨?_, by rw [e, c], n, by rw [f, b]⟩
        simp only [insert_calls, List.countP_cons] at d ⊢
        simp only [Bool.false_eq_true, if_false, Nat.add_zero]
        omega
    | search k =>
      unfold run_calls at h
      cases hi : hash_table_search mem ht k with
      | none => simp [hi] at h
      | some p =>
        obtain ⟨m, r⟩ := p
        simp only [hi] at h
        rw [search_keeps_table mem ht m k r hi] at h
        obtain ⟨d, e, n, f⟩ := ih ht ht1 hinv h
        refine ⟨?_, e, n, f⟩
        simp only [insert_calls, List.countP_cons] at d ⊢
        simp only [Bool.false_eq_true, if_false, Nat.add_zero]
        omega

/-- C17, as amended (the counter `key_count`). In every state reached from
`hash_table_new` by calls of the interface, `key_count` is the number of
`hash_table_insert` calls made since the table was created: removes do not
decrement it, and `hash_table_rehash`, when it completes, leaves it as it
was. -/
theorem key_count_counts_all_inserts (mem : Memory) (t : hash_table_type) (cs : List call)
    (ht : hash_table) (hreach : run_calls mem (hash_table_new t) cs = some ht) :
    ht.key_count = insert_calls cs ∧
    (∀ ht2 ht3, hash_table_rehash mem ht2 = some ht3 → ht3.key_count = ht2.key_count) := by
  constructor
  · have h := (run_calls_counts mem cs _ ht (load_inv_new t) hreach).1
    simpa [hash_table_new] using h
  · intro ht2 ht3 h
    exact (hash_table_rehash_spec mem ht2 ht3 h).2.2.1

/-- C17, witness: 45 inserts, one remove and two inserts on a pointer-keyed
table. -/
theorem key_count_counts_all_inserts_witness :
    ∃ ht, run_calls sample_mem (hash_table_new hash_table_type.HASH_KEY_PTR)
        (sample_calls 45 ++ [call.remove 1000, call.insert 1045 5045, call.insert 1046 5046]) =
        some ht ∧
      ht.key_count =
        insert_calls
          (sample_calls 45 ++ [call.remove 1000, call.insert 1045 5045, call.insert 1046 5046]) := by
  have hsome : (run_calls sample_mem (hash_table_new hash_table_type.HASH_KEY_PTR)
      (sample_calls 45 ++
        [call.remove 1000, call.insert 1045 5045, call.insert 1046 5046])).isSome = true := by
    decide
  obtain ⟨ht, h⟩ := Option.isSome_iff_exists.1 hsome
  exact ⟨ht, h, (key_count_counts_all_inserts sample_mem _ _ ht h).1⟩

/-- C17, counterexample. On the pointer-keyed table with 45 keys the resize
leaves `key_count` at 45, although no insertion has been made since it; and
after 45 inserts, one remove and two more inserts (the first of which
resizes), `key_count` is 47 with 46 occupied slots, although two insertions
were made since the resize. -/
theorem key_count_not_reset_by_rehash :
    (ptr_table_45.bind (fun ht => hash_table_rehash sample_mem ht)).map
      (fun ht => (ht.size, ht.key_count)) = some (128, 45) ∧
    (run_calls sample_mem (hash_table_new hash_table_type.HASH_KEY_PTR)
      (sample_calls 45 ++ [call.remove 1000, call.insert 1045 5045, call.insert 1046 5046])).map
      (fun ht => (ht.size, ht.key_count, occupied ht)) = some (128, 47, 46) := by
  decide

/-- C12 (growth policy), on the code: a new table has capacity 64, `key_count`
0 and only empty slots, and a search in it returns `NULL`; on a pointer-keyed
table the capacity is 64 after the 45th insert and 128 after the 46th; on a
string-keyed table the 46th insert, which finds `23 * 45 > 16 * 64`, faults in
the resize, so that the capacity does not become 128. -/
theorem growth_stops_on_string_table :
    hash_table_new hash_table_type.HASH_KEY_STR =
      ⟨hash_table_type.HASH_KEY_STR, 64, List.replicate 64 empty_entry, 0⟩ ∧
    hash_table_new hash_table_type.HASH_KEY_PTR =
      ⟨hash_table_type.HASH_KEY_PTR, 64, List.replicate 64 empty_entry, 0⟩ ∧
    hash_table_search sample_mem (hash_table_new hash_table_type.HASH_KEY_STR) 1000 =
      some (hash_table_new hash_table_type.HASH_KEY_STR, NULL) ∧
    ptr_table_45.map (fun ht => (ht.size, hash_table_must_rehash ht)) = some (64, true) ∧
    (ptr_table_45.bind (fun ht => hash_table_insert sample_mem ht 1045 5045)).map
      (fun r => (r.1.size, r.2)) = some (128, 1) ∧
    str_table_45.map (fun ht => (ht.size, hash_table_must_rehash ht)) = some (64, true) ∧
    (str_table_45.bind (fun ht => hash_table_insert sample_mem ht 1045 5045)).map
      (fun r => (r.1.size, r.2)) = none := by
  decide

/-- In every state reached from `hash_table_new` the capacity is `64 * 2^n`;
searches and removes keep it, and an insert that returns doubles it exactly
when `23 * key_count > 16 * size` held on entry. -/
theorem capacity_of_reachable (mem : Memory) (t : hash_table_type) (cs : List call)
    (ht : hash_table) (hreach : run_calls mem (hash_table_new t) cs = some ht) :
    (∃ n, ht.size = 64 * 2 ^ n) ∧
    (∀ k v ht1 r, hash_table_insert mem ht k v = some (ht1, r) →
      ht1.size = (if 23 * ht.key_count > 16 * ht.size then 2 * ht.size else ht.size)) ∧
    (∀ k pv ht1 r, hash_table_remove mem ht k pv = some (ht1, r) → ht1.size = ht.size) ∧
    (∀ k ht1 r, hash_table_search mem ht k = some (ht1, r) → ht1.size = ht.size) := by
  have hinv := run_calls_keeps_load_inv mem cs _ ht (load_inv_new t) hreach
  refine ⟨?_, ?_, ?_, ?_⟩
  · obtain ⟨_, _, n, hn⟩ := run_calls_counts mem cs _ ht (load_inv_new t) hreach
    exact ⟨n, by simpa [hash_table_new, HASH_DEFAULT_SIZE] using hn⟩
  · intro k v ht1 r h
    have := (insert_counts mem ht ht1 k v r hinv h).2.1
    simpa [hash_table_must_rehash] using this
  · intro k pv ht1 r h
    exact (remove_counts mem ht ht1 k pv r h).2.1
  · intro k ht1 r h
    rw [search_keeps_table mem ht ht1 k r h]

/-! ## The keys hashed by a resize -/

/-- C18 (resize rehashes only occupied slots), on the code: in the
string-keyed table with one key every occupied key can be hashed, slot 0 is
empty, `HASH` faults on `NULL` and on `REMOVED`, and `hash_table_rehash`
faults: it applies `hash_str` to the key of a slot that is not occupied. On
the pointer-keyed table with 45 keys of which one was removed, the resize
hashes the key `REMOVED` of the tombstone and stores it at the index
`himult64 REMOVED % 128` of the new array. -/
theorem rehash_hashes_free_slots :
    keys_valid sample_mem one_key_table ∧
    (slot one_key_table.table 0).key = NULL ∧
    HASH sample_mem one_key_table NULL = none ∧
    HASH sample_mem one_key_table REMOVED = none ∧
    hash_table_rehash sample_mem one_key_table = none ∧
    ((ptr_table_45.bind (fun ht => hash_table_remove sample_mem ht 1000 none)).bind
        (fun r => hash_table_rehash sample_mem r.1)).map
      (fun ht => slot ht.table (himult64 REMOVED % 128)) = some ⟨REMOVED, NULL⟩ :=
  ⟨one_key_table_keys_valid, by decide, by decide, by decide, by decide, by decide⟩

/-! ## A second insert of a key that is present -/

/-- Within one cycle the probe order visits pairwise different slots. -/
theorem probe_inj (ht : hash_table) (hv j1 j2 : Nat) (h1 : j1 < ht.size) (h2 : j2 < ht.size)
    (h : probe ht hv j1 = probe ht hv j2) : j1 = j2 := by
  unfold probe at h
  have hmod : Nat.ModEq ht.size (hv % ht.size + j1) (hv % ht.size + j2) := h
  exact Nat.ModEq.eq_of_lt_of_lt (Nat.ModEq.add_left_cancel' _ hmod) h1 h2

/-- The macro `EQUAL` reads only the type of the table. -/
theorem EQUAL_of_type (mem : Memory) (ht1 ht2 : hash_table) (a b : Ptr)
    (h : ht1.type = ht2.type) : EQUAL mem ht1 a b = EQUAL mem ht2 a b := by
  simp only [EQUAL, h]

/-- A key equal to the key of an occupied slot is itself neither `NULL` nor
`REMOVED`. -/
theorem valid_of_holds_key (mem : Memory) (ht : hash_table) (k : Ptr) (e : hash_table_entry)
    (h : holds_key mem ht k e) : k ≠ NULL ∧ k ≠ REMOVED := by
  obtain ⟨hocc, heq⟩ := h
  cases hty : ht.type with
  | HASH_KEY_PTR =>
    simp only [EQUAL, hty, Option.some.injEq, decide_eq_true_eq] at heq
    rw [← heq]
    exact hocc
  | HASH_KEY_STR =>
    simp only [EQUAL, hty] at heq
    cases h1 : cstr mem e.key with
    | none => simp [h1] at heq
    | some s1 =>
      cases h2 : cstr mem k with
      | none => simp [h1, h2] at heq
      | some s2 =>
        unfold cstr at h2
        by_cases hk : k = NULL ∨ k = REMOVED
        · simp [hk] at h2
        · exact ⟨fun h => hk (Or.inl h), fun h => hk (Or.inr h)⟩

/-- At most one round of a probe finds the key. -/
theorem found_at_unique (mem : Memory) (ht : hash_table) (k : Ptr) (hv i1 i2 : Nat)
    (h1 : found_at mem ht k hv i1) (h2 : found_at mem ht k hv i2) : i1 = i2 := by
  rcases Nat.lt_trichotomy i1 i2 with hlt | heq | hgt
  · exact absurd h1.1 (h2.2 i1 hlt).2
  · exact heq
  · exact absurd h2.1 (h1.2 i2 hgt).2

/-- Writing an occupied entry into a slot that is not occupied adds one
occupied slot. -/
theorem occupied_set_add (ht : hash_table) (w : Nat) (e : hash_table_entry) (kc : Nat)
    (hw : w < ht.table.length) (hold : ¬ is_occupied (slot ht.table w))
    (hnew : is_occupied e) :
    occupied { ht with table := ht.table.set w e, key_count := kc } = occupied ht + 1 := by
  have hs : slot ht.table w = ht.table[w] := by
    simp [slot, List.getD_eq_getElem?_getD, List.getElem?_eq_getElem hw]
  rw [hs] at hold
  unfold occupied
  simp only
  rw [List.countP_set _ _ _ _ hw]
  have h1 : decide (ht.table[w].key ≠ NULL ∧ ht.table[w].key ≠ REMOVED) = false := by
    simpa [is_occupied] using hold
  have h2 : decide (e.key ≠ NULL ∧ e.key ≠ REMOVED) = true := by
    simpa [is_occupied] using hnew
  rw [h1, h2]
  simp

/-- The result of `hash_table_insert` when the overflow check asks for no
resize, in terms of the probe loop. -/
theorem insert_eq_of_no_resize (mem : Memory) (ht : hash_table) (k v : Ptr) (hv : Nat)
    (hno : hash_table_must_rehash ht = false) (hk : HASH mem ht k = some hv) :
    hash_table_insert mem ht k v =
      (if insert_probe ht.table ht.size (hv % ht.size) ht.size 0 = ht.size then some (ht, 0)
       else some ({ ht with
          table := ht.table.set
            (probe ht hv (insert_probe ht.table ht.size (hv % ht.size) ht.size 0)) ⟨k, v⟩,
          key_count := ht.key_count + 1 }, 1)) := by
  unfold hash_table_insert hash_table_check_overflow probe
  rw [hno]
  simp only [Bool.false_eq_true, if_false]
  rw [hk]

/-- Writing a hashable key into a slot keeps the occupied keys valid. -/
theorem keys_valid_set (mem : Memory) (ht : hash_table) (w : Nat) (k v : Ptr) (kc : Nat)
    (hkeys : keys_valid mem ht) (hk : HASH mem ht k ≠ none) :
    keys_valid mem { ht with table := ht.table.set w ⟨k, v⟩, key_count := kc } := by
  intro e he hocc
  have hty : HASH mem { ht with table := ht.table.set w ⟨k, v⟩, key_count := kc } e.key =
      HASH mem ht e.key := HASH_of_type mem _ _ _ rfl
  rw [hty]
  rcases List.mem_or_eq_of_mem_set he with hmem | heq
  · exact hkeys e hmem hocc
  · rw [heq]
    exact hk

/-- A second insert of a key that is present, in a table without tombstones:
the key goes to the first empty slot of its probe order, after the slot that
holds it already, and the search still returns the first value. -/
theorem duplicate_insert_generic (mem : Memory) (ht : hash_table) (k v2 : Ptr) (hv i : Nat)
    (hwf : wf ht) (hkeys : keys_valid mem ht) (hno : hash_table_must_rehash ht = false)
    (hk : HASH mem ht k = some hv)
    (hnotomb : ∀ w, (slot ht.table w).key ≠ REMOVED)
    (hi : i < ht.size) (hfound : found_at mem ht k hv i)
    (hempty : ∃ w, w < ht.size ∧ is_free (slot ht.table w)) :
    ∃ ht1, hash_table_insert mem ht k v2 = some (ht1, 1) ∧
      occupied ht1 = occupied ht + 1 ∧ ht1.key_count = ht.key_count + 1 ∧
      ht1.size = ht.size ∧
      hash_table_search mem ht1 k = some (ht1, (slot ht.table (probe ht hv i)).value) := by
  have hh : hv % ht.size < ht.size := Nat.mod_lt _ hwf.2
  have hlt := insert_probe_lt ht.table ht.size (hv % ht.size) hh hempty
  obtain ⟨_, _, hnone, hstop⟩ := insert_probe_spec ht.table ht.size (hv % ht.size) ht.size 0
  have hfree := hstop (by omega)
  generalize hp : insert_probe ht.table ht.size (hv % ht.size) ht.size 0 = p at hlt hnone hfree
  have hpe : is_empty (slot ht.table (probe ht hv p)) := by
    rcases hfree with h | h
    · exact h
    · exact absurd h (hnotomb _)
  have hip : i < p := by
    rcases Nat.lt_trichotomy i p with h | h | h
    · exact h
    · subst h
      exact absurd hpe hfound.1.1.1
    · exact absurd hpe (hfound.2 p h).1
  have hins := insert_eq_of_no_resize mem ht k v2 hv hno hk
  rw [hp, if_neg (Nat.ne_of_lt hlt)] at hins
  refine ⟨_, hins, ?_, rfl, rfl, ?_⟩
  · apply occupied_set_add
    · rw [hwf.1]
      exact probe_lt ht hv p hwf
    · intro hocc
      exact hocc.1 hpe
    · exact valid_of_holds_key mem ht k _ hfound.1
  · -- the search in the new table
    have hk1 : HASH mem { ht with
        table := ht.table.set (probe ht hv p) ⟨k, v2⟩, key_count := ht.key_count + 1 } k =
        some hv := by
      rw [← hk]
      exact HASH_of_type mem _ _ _ rfl
    have hkeys1 := keys_valid_set mem ht (probe ht hv p) k v2 (ht.key_count + 1) hkeys
      (by rw [hk]; exact Option.some_ne_none hv)
    have hslot : ∀ j, j ≤ i →
        slot (ht.table.set (probe ht hv p) ⟨k, v2⟩) (probe ht hv j) =
          slot ht.table (probe ht hv j) := by
      intro j hj
      apply slot_set_ne
      intro heq
      have := probe_inj ht hv j p (by omega) hlt heq
      omega
    have hfound1 : found_at mem { ht with
        table := ht.table.set (probe ht hv p) ⟨k, v2⟩, key_count := ht.key_count + 1 } k hv i := by
      constructor
      · show holds_key mem _ k (slot (ht.table.set (probe ht hv p) ⟨k, v2⟩) (probe ht hv i))
        rw [hslot i (Nat.le_refl _)]
        exact ⟨hfound.1.1, (EQUAL_of_type mem _ ht _ _ rfl).trans hfound.1.2⟩
      · intro j hj
        show ¬ is_empty (slot (ht.table.set (probe ht hv p) ⟨k, v2⟩) (probe ht hv j)) ∧
          ¬ holds_key mem _ k (slot (ht.table.set (probe ht hv p) ⟨k, v2⟩) (probe ht hv j))
        rw [hslot j (by omega)]
        refine ⟨(hfound.2 j hj).1, ?_⟩
        intro hhold
        exact (hfound.2 j hj).2 ⟨hhold.1, (EQUAL_of_type mem ht _ _ _ rfl).trans hhold.2⟩
    rcases lookup_entry_spec mem _ k hv hkeys1 hk1 with ⟨i1, _, hf1, e⟩ | ⟨hnof, _⟩
    · have hii : i1 = i := found_at_unique mem _ k hv i1 i hf1 hfound1
      subst hii
      simp only [hash_table_search, e]
      show some (_, (slot (ht.table.set (probe ht hv p) ⟨k, v2⟩) (probe ht hv i1)).value) = _
      rw [hslot i1 (Nat.le_refl _)]
    · exact absurd ⟨i, hi, hfound1⟩ hnof

/-- On a pointer-keyed table every key can be hashed. -/
theorem keys_valid_of_ptr (mem : Memory) (ht : hash_table)
    (hty : ht.type = hash_table_type.HASH_KEY_PTR) : keys_valid mem ht := by
  intro e _ _
  rw [HASH_ptr mem ht e.key hty]
  exact Option.some_ne_none _

theorem keys_valid_new (mem : Memory) (t : hash_table_type) :
    keys_valid mem (hash_table_new t) := by
  intro e he hocc
  simp only [hash_table_new, List.mem_replicate] at he
  rw [he.2] at hocc
  exact absurd rfl hocc.1

/-- An insert that returns keeps the occupied keys valid. -/
theorem insert_keeps_keys_valid (mem : Memory) (ht ht1 : hash_table) (k v : Ptr) (r : Int)
    (hinv : load_inv ht) (hkeys : keys_valid mem ht)
    (h : hash_table_insert mem ht k v = some (ht1, r)) : keys_valid mem ht1 := by
  by_cases hm : hash_table_must_rehash ht = true
  · cases hty : ht.type with
    | HASH_KEY_PTR =>
      apply keys_valid_of_ptr
      rw [(insert_counts mem ht ht1 k v r hinv h).2.2, hty]
    | HASH_KEY_STR =>
      rw [insert_faults_str_at_resize mem ht k v hinv hty hm] at h
      simp at h
  · have hno : hash_table_must_rehash ht = false := by simpa using hm
    cases hh : HASH mem ht k with
    | none =>
      unfold hash_table_insert hash_table_check_overflow at h
      rw [hno] at h
      simp only [Bool.false_eq_true, if_false] at h
      rw [hh] at h
      simp at h
    | some hv =>
      rw [insert_eq_of_no_resize mem ht k v hv hno hh] at h
      split at h
      · simp only [Option.some.injEq, Prod.mk.injEq] at h
        rw [← h.1]
        exact hkeys
      · simp only [Option.some.injEq, Prod.mk.injEq] at h
        rw [← h.1]
        exact keys_valid_set mem ht _ k v _ hkeys (by rw [hh]; exact Option.some_ne_none hv)

/-- A remove that returns keeps the occupied keys valid. -/
theorem remove_keeps_keys_valid (mem : Memory) (ht ht1 : hash_table) (k : Ptr)
    (pv : Option Ptr) (r : Int × Option Ptr) (hkeys : keys_valid mem ht)
    (h : hash_table_remove mem ht k pv = some (ht1, r)) : keys_valid mem ht1 := by
  unfold hash_table_remove at h
  cases hl : lookup_entry mem ht k with
  | none => simp [hl] at h
  | some o =>
    cases o with
    | none =>
      simp only [hl, Option.some.injEq, Prod.mk.injEq] at h
      rw [← h.1]
      exact hkeys
    | some w =>
      simp only [hl, Option.some.injEq, Prod.mk.injEq] at h
      rw [← h.1]
      intro e he hocc
      have hty : HASH mem { ht with table := ht.table.set w ⟨REMOVED, NULL⟩ } e.key =
          HASH mem ht e.key := HASH_of_type mem _ _ _ rfl
      rw [hty]
      rcases List.mem_or_eq_of_mem_set he with hmem | heq
      · exact hkeys e hmem hocc
      · rw [heq] at hocc
        exact absurd rfl hocc.2

/-- In every state reached by calls of the interface the occupied keys are
valid. -/
theorem run_calls_keeps_keys_valid (mem : Memory) :
    ∀ (cs : List call) (ht ht1 : hash_table),
      load_inv ht → keys_valid mem ht → run_calls mem ht cs = some ht1 →
      keys_valid mem ht1 := by
  intro cs
  induction cs with
  | nil =>
    intro ht ht1 _ hkeys h
    simp only [run_calls, Option.some.injEq] at h
    subst h
    exact hkeys
  | cons c cs ih =>
    intro ht ht1 hinv hkeys h
    cases c with
    | insert k v =>
      unfold run_calls at h
      cases hi : hash_table_insert mem ht k v with
      | none => simp [hi] at h
      | some p =>
        obtain ⟨m, r⟩ := p
        simp only [hi] at h
        exact ih m ht1 (insert_keeps_load_inv mem ht m k v r hinv hi).1
          (insert_keeps_keys_valid mem ht m k v r hinv hkeys hi) h
    | remove k =>
      unfold run_calls at h
      cases hi : hash_table_remove mem ht k none with
      | none => simp [hi] at h
      | some p =>
        obtain ⟨m, r⟩ := p
        simp only [hi] at h
        exact ih m ht1 (remove_keeps_load_inv mem ht m k none r hinv hi)
          (remove_keeps_keys_valid mem ht m k none r hkeys hi) h
    | search k =>
      unfold run_calls at h
      cases hi : hash_table_search mem ht k with
      | none => simp [hi] at h
      | some p =>
        obtain ⟨m, r⟩ := p
        simp only [hi] at h
        rw [search_keeps_table mem ht m k r hi] at h
        exact ih ht ht1 hinv hkeys h

/-- C16 (duplicate insert). In every state reached from `hash_table_new` by
calls of the interface that has no tombstone and in which the lookup of `k`
finds an entry (so that `hash_table_search` returns its value `v1`), a
`hash_table_insert` of `k` with a value `v2` that asks for no resize returns 1,
adds one to the occupied slots and to `key_count`, and the search of `k` still
returns `v1`: the second entry lies behind the first in the probe order. -/
theorem duplicate_insert_unreachable_entry (mem : Memory) (t : hash_table_type)
    (cs : List call) (ht : hash_table) (k v2 : Ptr) (w : Nat)
    (hreach : run_calls mem (hash_table_new t) cs = some ht)
    (hnotomb : tombstones ht = 0)
    (hfound : lookup_entry mem ht k = some (some w))
    (hno : hash_table_must_rehash ht = false) :
    hash_table_search mem ht k = some (ht, (slot ht.table w).value) ∧
    ∃ ht1, hash_table_insert mem ht k v2 = some (ht1, 1) ∧
      occupied ht1 = occupied ht + 1 ∧ ht1.key_count = ht.key_count + 1 ∧
      hash_table_search mem ht1 k = some (ht1, (slot ht.table w).value) := by
  have hinv := run_calls_keeps_load_inv mem cs _ ht (load_inv_new t) hreach
  have hkeys := run_calls_keeps_keys_valid mem cs _ ht (load_inv_new t)
    (keys_valid_new mem t) hreach
  have hwf : wf ht := ⟨hinv.1, by have := hinv.2.1; omega⟩
  have hs : hash_table_search mem ht k = some (ht, (slot ht.table w).value) := by
    simp only [hash_table_search, hfound]
  refine ⟨hs, ?_⟩
  cases hk : HASH mem ht k with
  | none => simp [lookup_entry, hk] at hfound
  | some hv =>
    have htomb : ∀ w, (slot ht.table w).key ≠ REMOVED := by
      intro w1 hw1
      rcases Nat.lt_or_ge w1 ht.table.length with hlt | hge
      · have hmem := slot_mem ht.table w1 hlt
        unfold tombstones at hnotomb
        rw [List.countP_eq_zero] at hnotomb
        have := hnotomb _ hmem
        simp only [decide_eq_true_eq] at this
        exact this hw1
      · have : slot ht.table w1 = empty_entry := by
          simp [slot, List.getD_eq_getElem?_getD, List.getElem?_eq_none hge]
        rw [this] at hw1
        exact absurd hw1 (by decide)
    have hempty : ∃ w1, w1 < ht.size ∧ is_free (slot ht.table w1) := by
      obtain ⟨h1, h2, h3, h4⟩ := hinv
      obtain ⟨w1, hw1, hk1⟩ := exists_empty_of_nonnull_lt ht.table (by omega)
      exact ⟨w1, by omega, Or.inl hk1⟩
    rcases lookup_entry_spec mem ht k hv hkeys hk with ⟨i, hi, hf, e⟩ | ⟨_, e⟩
    · rw [hfound] at e
      simp only [Option.some.injEq] at e
      obtain ⟨ht1, a, b, c, _, d⟩ :=
        duplicate_insert_generic mem ht k v2 hv i hwf hkeys hno hk htomb hi hf hempty
      rw [← e] at d
      exact ⟨ht1, a, b, c, d⟩
    · rw [hfound] at e
      simp at e

/-- C16, witness: a second insert of the key at address 1000 into
`one_key_table`, which is reached by one insert. -/
theorem duplicate_insert_unreachable_entry_witness :
    run_calls sample_mem (hash_table_new hash_table_type.HASH_KEY_STR)
        [call.insert 1000 5000] = some one_key_table ∧
    tombstones one_key_table = 0 ∧
    lookup_entry sample_mem one_key_table 1000 = some (some 33) ∧
    hash_table_must_rehash one_key_table = false ∧
    hash_table_search sample_mem one_key_table 1000 =
      some (one_key_table, (slot one_key_table.table 33).value) ∧
    ∃ ht1, hash_table_insert sample_mem one_key_table 1000 6000 = some (ht1, 1) ∧
      occupied ht1 = occupied one_key_table + 1 ∧
      ht1.key_count = one_key_table.key_count + 1 ∧
      hash_table_search sample_mem ht1 1000 =
        some (ht1, (slot one_key_table.table 33).value) :=
  ⟨by decide, by decide, by decide, rfl,
    duplicate_insert_unreachable_entry sample_mem hash_table_type.HASH_KEY_STR
      [call.insert 1000 5000] one_key_table 1000 6000 33 (by decide) (by decide) (by decide) rfl⟩

/-! ## The bootstrap of the engine -/

/-- The function `a6o_add_builtin_modules` appends the registrations that the
build options enable. -/
theorem a6o_add_builtin_modules_eq (opts : build_options) (u : armadito)
    (tr : List ext_call) :
    a6o_add_builtin_modules opts u tr = tr ++ builtin_adds opts u.module_manager := by
  obtain ⟨o1, o2, o3, o4, o5⟩ := opts
  cases o2 <;> cases o3 <;> cases o4 <;> cases o5 <;>
    simp [a6o_add_builtin_modules, builtin_adds]

/-- The handle returned by `a6o_open` and the outside calls it makes. -/
theorem a6o_open_eq (opts : build_options) (res : open_results) (conf : Ptr)
    (tr : List ext_call) :
    a6o_open opts res conf tr =
      ({ module_manager := res.module_manager_new, conf := conf,
         event_source := res.a6o_event_source_new }, tr ++ open_trace opts res conf) := by
  by_cases h1 : opts.HAVE_GTHREAD_INIT = true <;>
  by_cases h2 : res.a6o_std_path = NULL <;>
  by_cases h3 : res.module_manager_load_path = 0 <;>
  by_cases h4 : res.module_manager_init_all = 0 <;>
  by_cases h5 : res.module_manager_configure_all = 0 <;>
  by_cases h6 : res.module_manager_post_init_all = 0 <;>
  simp [a6o_open, a6o_new, a6o_add_builtin_modules_eq, open_trace, log_if,
    h1, h2, h3, h4, h5, h6]

theorem filter_builtin_adds (opts : build_options) (mm : Ptr) :
    (builtin_adds opts mm).filter is_bootstrap_step = builtin_adds opts mm := by
  obtain ⟨o1, o2, o3, o4, o5⟩ := opts
  cases o2 <;> cases o3 <;> cases o4 <;> cases o5 <;>
    simp [builtin_adds, is_bootstrap_step]

/-- The bootstrap steps among the outside calls of one `a6o_open`. -/
theorem filter_open_trace (opts : build_options) (res : open_results) (conf : Ptr) :
    (open_trace opts res conf).filter is_bootstrap_step =
      builtin_adds opts res.module_manager_new ++
        (if res.a6o_std_path = NULL then []
         else [ext_call.module_manager_load_path res.module_manager_new res.a6o_std_path]) ++
        [ext_call.module_manager_init_all res.module_manager_new,
         ext_call.module_manager_configure_all res.module_manager_new conf,
         ext_call.module_manager_post_init_all res.module_manager_new] := by
  by_cases h1 : opts.HAVE_GTHREAD_INIT = true <;>
  by_cases h2 : res.a6o_std_path = NULL <;>
  by_cases h3 : res.module_manager_load_path = 0 <;>
  by_cases h4 : res.module_manager_init_all = 0 <;>
  by_cases h5 : res.module_manager_configure_all = 0 <;>
  by_cases h6 : res.module_manager_post_init_all = 0 <;>
  simp [open_trace, log_if, List.filter_append, filter_builtin_adds, is_bootstrap_step,
    h1, h2, h3, h4, h5, h6]

/-- C13 (degraded start). Whatever `module_manager_load_path`,
`module_manager_init_all`, `module_manager_configure_all` and
`module_manager_post_init_all` return, `a6o_open` returns the engine handle,
and the bootstrap steps it adds to the trace are, in this order: the
registrations of the builtin modules, the load of the dynamic modules (left
out only when `a6o_std_path` returns `NULL`), `module_manager_init_all`,
`module_manager_configure_all` and `module_manager_post_init_all`, each of the
last three exactly once. -/
theorem a6o_open_degraded_start (opts : build_options) (res : open_results) (conf : Ptr)
    (tr : List ext_call) :
    (a6o_open opts res conf tr).1 =
      { module_manager := res.module_manager_new, conf := conf,
        event_source := res.a6o_event_source_new } ∧
    (a6o_open opts res conf tr).2.filter is_bootstrap_step =
      tr.filter is_bootstrap_step ++ (builtin_adds opts res.module_manager_new ++
        (if res.a6o_std_path = NULL then []
         else [ext_call.module_manager_load_path res.module_manager_new res.a6o_std_path]) ++
        [ext_call.module_manager_init_all res.module_manager_new,
         ext_call.module_manager_configure_all res.module_manager_new conf,
         ext_call.module_manager_post_init_all res.module_manager_new]) := by
  rw [a6o_open_eq]
  exact ⟨rfl, by rw [List.filter_append, filter_open_trace]⟩

theorem filter_configure_builtin_adds (opts : build_options) (mm : Ptr) :
    (builtin_adds opts mm).filter is_configure_all = [] := by
  obtain ⟨o1, o2, o3, o4, o5⟩ := opts
  cases o2 <;> cases o3 <;> cases o4 <;> cases o5 <;>
    simp [builtin_adds, is_configure_all]

/-- The calls of `module_manager_configure_all` among the outside calls of one
`a6o_open`. -/
theorem filter_configure_open_trace (opts : build_options) (res : open_results)
    (conf : Ptr) :
    (open_trace opts res conf).filter is_configure_all =
      [ext_call.module_manager_configure_all res.module_manager_new conf] := by
  by_cases h1 : opts.HAVE_GTHREAD_INIT = true <;>
  by_cases h2 : res.a6o_std_path = NULL <;>
  by_cases h3 : res.module_manager_load_path = 0 <;>
  by_cases h4 : res.module_manager_init_all = 0 <;>
  by_cases h5 : res.module_manager_configure_all = 0 <;>
  by_cases h6 : res.module_manager_post_init_all = 0 <;>
  simp [open_trace, log_if, List.filter_append, filter_configure_builtin_adds,
    is_configure_all, h1, h2, h3, h4, h5, h6]

/-- C15 (configuration pass-through). For every configuration pointer `conf`,
`a6o_open` calls `module_manager_configure_all` once, with the module manager
of the engine and with `conf` itself, and `a6o_get_conf` on the returned engine
yields `conf`. -/
theorem a6o_open_passes_conf (opts : build_options) (res : open_results) (conf : Ptr)
    (tr : List ext_call) :
    (a6o_open opts res conf tr).2.filter is_configure_all =
      tr.filter is_configure_all ++
        [ext_call.module_manager_configure_all
          (a6o_open opts res conf tr).1.module_manager conf] ∧
    a6o_get_conf (a6o_open opts res conf tr).1 = conf := by
  rw [a6o_open_eq]
  exact ⟨by rw [List.filter_append, filter_configure_open_trace], rfl⟩

/-! ## Closing the engine -/

/-- C14, as amended (close). The function `a6o_close` keeps no closed state:
every call, also one on an engine that was closed before, calls
`module_manager_close_all` on the module manager of the engine once and
returns what it returns; two calls in a row make two such calls. -/
theorem a6o_close_drives_close_all (r1 r2 : Int) (u : armadito) (tr : List ext_call) :
    a6o_close r1 u tr = (r1, tr ++ [ext_call.module_manager_close_all u.module_manager]) ∧
    a6o_close r2 u (a6o_close r1 u tr).2 =
      (r2, tr ++ [ext_call.module_manager_close_all u.module_manager,
                  ext_call.module_manager_close_all u.module_manager]) := by
  simp [a6o_close]

/-- C14, counterexample. After `a6o_open` and a first `a6o_close`, a second
`a6o_close` calls `module_manager_close_all` again: the trace holds two such
calls, not one. -/
theorem second_close_calls_close_all_again :
    ((a6o_close 0 (a6o_open sample_options sample_results 400 []).1
        (a6o_close 0 (a6o_open sample_options sample_results 400 []).1
          (a6o_open sample_options sample_results 400 []).2).2).2.filter is_close_all) =
      [ext_call.module_manager_close_all 100, ext_call.module_manager_close_all 100] ∧
    ((a6o_close 0 (a6o_open sample_options sample_results 400 []).1
        (a6o_open sample_options sample_results 400 []).2).2.filter is_close_all) =
      [ext_call.module_manager_close_all 100] := by
  decide

end Armadito
